import Mathlib

/-!
Shallow embedding of the layout / text-wrapping / compositing engine of the
cherkizovo design service, together with proofs of the frozen claims about it.

Conventions of the embedding:
* JavaScript numbers that the code keeps finite are modelled as `ℚ`;
  a possibly non-finite number (NaN / ±Infinity / absent) is `Option ℚ`
  with `none` standing for the non-finite or missing case.
* JavaScript strings are modelled as `List Char` (`JStr`).
* The opentype measurement function (font advance widths, kerning,
  letter spacing) is an opaque parameter `m : Measure`; the wrapping code
  only ever calls it as a black box.
* `Math.round` is `jround` (round half toward positive infinity, as in JS)
  and `Math.floor` is `Int.floor` on `ℚ`.
* while-loops are embedded with explicit fuel that provably suffices.
-/

/-- JavaScript strings, modelled as lists of characters. -/
abbrev JStr := List Char

/-- Abstract text measurement: `measureTextPx` at a fixed font, size and
letter spacing; the wrapper only uses it as a function from text to width. -/
abbrev Measure := JStr → ℚ

/-- `Math.round` of JavaScript: round half toward positive infinity. -/
def jround (q : ℚ) : ℤ := ⌊q + 1/2⌋

/-- The `clamp(value, min, max)` helper of the engine:
`Math.min(max, Math.max(min, value))`. -/
def clampQ (value lo hi : ℚ) : ℚ := min hi (max lo value)

/-- JS whitespace (`\s`): the code points matched by the engine's regexes. -/
def isWS (c : Char) : Bool :=
  let n := c.toNat
  n = 0x20 || n = 0x09 || n = 0x0a || n = 0x0d || n = 0x0b || n = 0x0c ||
  n = 0xa0 || n = 0x1680 || (0x2000 ≤ n && n ≤ 0x200a) ||
  n = 0x2028 || n = 0x2029 || n = 0x202f || n = 0x205f || n = 0x3000 || n = 0xfeff

/-- `text.split(CRLF, LF or U+2028)`: split into paragraphs at explicit
line breaks, keeping empty paragraphs. -/
def splitParagraphs : JStr → List JStr
  | [] => [[]]
  | '\r' :: '\n' :: rest => [] :: splitParagraphs rest
  | c :: rest =>
    if c = '\n' ∨ c = '\u2028' then [] :: splitParagraphs rest
    else
      match splitParagraphs rest with
      | [] => [[c]]
      | p :: ps => (c :: p) :: ps

/-- Single pass behind `splitOnWS`: `acc` is the reversed current run of
non-whitespace characters. -/
def splitWSAux : JStr → JStr → List JStr
  | [], acc => if acc = [] then [] else [acc.reverse]
  | c :: rest, acc =>
    if isWS c then
      if acc = [] then splitWSAux rest [] else acc.reverse :: splitWSAux rest []
    else splitWSAux rest (c :: acc)

/-- `paragraph.split(/\s+/).filter(Boolean)`: the maximal runs of
non-whitespace characters, in order. -/
def splitOnWS (s : JStr) : List JStr := splitWSAux s []

/-- The scanning loop of `splitLongWord`: starting from a committed prefix
`acc` (the characters since `cursor`), count how many further characters can
be taken while every intermediate chunk still measures within `maxWidthPx`. -/
def scanFitAux (m : Measure) (maxWidthPx : ℚ) : JStr → JStr → Nat
  | _, [] => 0
  | acc, c :: cs =>
    let acc2 := acc ++ [c]
    if m acc2 ≤ maxWidthPx then 1 + scanFitAux m maxWidthPx acc2 cs else 0

/-- The cursor loop of `splitLongWord`, with fuel: each iteration takes the
largest prefix of the remaining word that fits (`lastFit`), forcing a single
character when not even one character fits. -/
def splitLongWordFuel (m : Measure) (maxWidthPx : ℚ) : Nat → JStr → List JStr
  | 0, _ => []
  | _, [] => []
  | fuel + 1, w =>
    let n := scanFitAux m maxWidthPx [] w
    let k := max n 1
    w.take k :: splitLongWordFuel m maxWidthPx fuel (w.drop k)

/-- `splitLongWord(word, maxWidthPx, …)`: hard-split a word that is wider
than the budget into chunks, each the largest prefix that fits (at least one
character per chunk).  The fuel `word.length` dominates the loop, which
consumes at least one character per iteration. -/
def splitLongWord (m : Measure) (maxWidthPx : ℚ) (word : JStr) : List JStr :=
  splitLongWordFuel m maxWidthPx word.length word

/-- The word loop of `wrapTextByWords` for one paragraph: greedy append of
words into `current`, flushing on overflow, delegating over-wide words to
`splitLongWord` (all chunks but the last are emitted, the last one becomes
the new `current`).  The trailing `lines.push(current)` is the base case. -/
def wrapWords (m : Measure) (maxWidthPx : ℚ) : List JStr → JStr → List JStr
  | [], current => [current]
  | w :: ws, current =>
    let candidate := if current = [] then w else current ++ ' ' :: w
    if m candidate ≤ maxWidthPx then wrapWords m maxWidthPx ws candidate
    else
      let flushed := if current = [] then [] else [current]
      if m w ≤ maxWidthPx then flushed ++ wrapWords m maxWidthPx ws w
      else
        let chunks := splitLongWord m maxWidthPx w
        flushed ++ chunks.dropLast ++ wrapWords m maxWidthPx ws (chunks.getLastD [])

/-- One paragraph of `wrapTextByWords`: empty paragraphs and all-whitespace
paragraphs contribute a single empty line. -/
def wrapParagraph (m : Measure) (maxWidthPx : ℚ) (paragraph : JStr) : List JStr :=
  if paragraph = [] then [[]]
  else
    let words := splitOnWS paragraph
    if words = [] then [[]]
    else wrapWords m maxWidthPx words []

/-- `wrapTextByWords(text, maxWidthPx, font, fontSizePx, letterSpacingPx)`:
split into paragraphs, wrap each, and fall back to `[""]` for empty output. -/
def wrapTextByWords (m : Measure) (maxWidthPx : ℚ) (text : JStr) : List JStr :=
  let lines := (splitParagraphs text).flatMap (wrapParagraph m maxWidthPx)
  if lines = [] then [[]] else lines

/-- A raw candidate box before the Geometry Guard.  Each coordinate is a JS
number: `none` models a non-finite value (`NaN` or infinity). -/
structure RawBox where
  left : Option ℚ
  top : Option ℚ
  width : Option ℚ
  height : Option ℚ
deriving DecidableEq

/-- A box accepted by the Geometry Guard (`SafeBox` in the engine), with
`Math.round`ed integer coordinates. -/
structure SafeBox where
  left : ℤ
  top : ℤ
  width : ℤ
  height : ℤ
deriving DecidableEq

/-- The acceptance condition of `sanitizeBox` for finite coordinates:
`widthOk && heightOk && posOk && areaOk` exactly as in the source.  Note that
the position check only has lower bounds. -/
def sanitizeBoxOk (l t w h frameW frameH : ℚ) : Prop :=
  (1 ≤ w ∧ w ≤ min (frameW * 4) 12000) ∧
  (1 ≤ h ∧ h ≤ min (frameH * 4) 12000) ∧
  (-(frameW * 2) ≤ l ∧ -(frameH * 2) ≤ t) ∧
  w * h ≤ 200000000

instance (l t w h frameW frameH : ℚ) :
    Decidable (sanitizeBoxOk l t w h frameW frameH) := by
  unfold sanitizeBoxOk; infer_instance

/-- `sanitizeBox(box, frameW, frameH, label, badBoxes)`: the Geometry Guard.
Returns the rounded box, or `none` when the candidate is rejected; the `Bool`
records whether an entry was appended to the `badBoxes` debug list (the
source pushes exactly when it rejects). -/
def sanitizeBox (box : Option RawBox) (frameW frameH : ℚ) : Option SafeBox × Bool :=
  match box with
  | none => (none, true)
  | some b =>
    match b.left, b.top, b.width, b.height with
    | some l, some t, some w, some h =>
      if sanitizeBoxOk l t w h frameW frameH then
        (some ⟨jround l, jround t, jround w, jround h⟩, false)
      else (none, true)
    | _, _, _, _ => (none, true)

/-- The geometric skeleton of `normalizeCompositeItem`: the overlay image is
abstracted to its metadata size `(ow, oh)`.  Returns the final box that the
overlay is composited at, or `none` when the item is dropped (empty overlay,
guard rejection, or empty intersection with the base canvas).  The final
sharp-metadata re-check is image-dependent and outside this skeleton. -/
def normalizeCompositeBox (baseW baseH : ℤ) (ow oh : ℚ)
    (itemLeft itemTop : ℚ) (itemWidth itemHeight : Option ℚ) :
    Option SafeBox :=
  if ow ≤ 0 ∨ oh ≤ 0 then none
  else
    let left0 : ℤ := jround itemLeft
    let top0 : ℤ := jround itemTop
    let w0 : ℤ := jround (itemWidth.getD ow)
    let h0 : ℤ := jround (itemHeight.getD oh)
    match (sanitizeBox (some ⟨some (left0 : ℚ), some (top0 : ℚ), some (w0 : ℚ), some (h0 : ℚ)⟩)
        (baseW : ℚ) (baseH : ℚ)).1 with
    | none => none
    | some safe =>
      let left := safe.left
      let top := safe.top
      let w := safe.width
      let h := safe.height
      let interLeft := max left 0
      let interTop := max top 0
      let interRight := min (left + w) baseW
      let interBottom := min (top + h) baseH
      let interW := interRight - interLeft
      let interH := interBottom - interTop
      if interW ≤ 0 ∨ interH ≤ 0 then none
      else if interW ≠ w ∨ interH ≠ h then
        some ⟨interLeft, interTop, interW, interH⟩
      else some ⟨left, top, w, h⟩

/-- A computed layout box (`LayoutBox` in the engine). -/
structure LayoutBox where
  x : ℚ
  y : ℚ
  width : ℚ
  height : ℚ
deriving DecidableEq

/-- The fields of a normalized `LayoutNode` that the verified operations
consume (fills/radii/opacity/font style feed only the rasterizer, which is
outside this embedding; `parentId` feeds only the container walk). -/
structure NodeData where
  id : String
  name : JStr
  visible : Bool
  bbox : Option LayoutBox
  characters : Option JStr
  layoutMode : Option String
  paddingLeft : Option ℚ
  paddingRight : Option ℚ
  paddingTop : Option ℚ
  paddingBottom : Option ℚ
  itemSpacing : Option ℚ
  constraintsH : Option String
  constraintsV : Option String
  layoutSizingHorizontal : Option String
  layoutSizingVertical : Option String
  primaryAxisSizingMode : Option String
  counterAxisSizingMode : Option String
deriving DecidableEq

/-- A normalized layout node: data plus ordered children. -/
inductive LayoutNode : Type where
  | node : NodeData → List LayoutNode → LayoutNode

/-- Projection: the own data of a node. -/
def LayoutNode.data : LayoutNode → NodeData
  | .node d _ => d

/-- Projection: the children of a node. -/
def LayoutNode.children : LayoutNode → List LayoutNode
  | .node _ cs => cs

/-- `isFixedContainer(node)`: any of the four sizing modes declared FIXED. -/
def isFixedContainer (d : NodeData) : Bool :=
  d.layoutSizingHorizontal = some "FIXED" ∨ d.counterAxisSizingMode = some "FIXED" ∨
  d.layoutSizingVertical = some "FIXED" ∨ d.primaryAxisSizingMode = some "FIXED"

/-- The two auto-layout axes. -/
inductive Axis : Type where
  | horizontal
  | vertical
deriving DecidableEq

/-- The resolved sizing mode of a child on one axis. -/
inductive SizingMode : Type where
  | FIXED
  | HUG
  | FILL
deriving DecidableEq

/-- `getSizingMode(node, axis)`: explicit `layoutSizing*` wins, then the
legacy axis-sizing mode, then a stretching constraint, defaulting to HUG. -/
def getSizingMode (d : NodeData) (axis : Axis) : SizingMode :=
  match axis with
  | .horizontal =>
    if d.layoutSizingHorizontal = some "FILL" then .FILL
    else if d.layoutSizingHorizontal = some "HUG" then .HUG
    else if d.layoutSizingHorizontal = some "FIXED" then .FIXED
    else if d.counterAxisSizingMode = some "FIXED" then .FIXED
    else if d.constraintsH = some "LEFT_RIGHT" then .FILL
    else .HUG
  | .vertical =>
    if d.layoutSizingVertical = some "FILL" then .FILL
    else if d.layoutSizingVertical = some "HUG" then .HUG
    else if d.layoutSizingVertical = some "FIXED" then .FIXED
    else if d.primaryAxisSizingMode = some "FIXED" then .FIXED
    else if d.constraintsV = some "TOP_BOTTOM" then .FILL
    else .HUG

/-- The bbox fallback of `computeIntrinsicSize`:
`Math.max(1, node.bbox?.width ?? 1)` on both axes. -/
def intrinsicFallback (d : NodeData) : ℚ × ℚ :=
  (max 1 ((d.bbox.map LayoutBox.width).getD 1),
   max 1 ((d.bbox.map LayoutBox.height).getD 1))

/-- `computeIntrinsicSize(node, cache)` without the memoization cache (the
cache only avoids recomputation): bottom-up intrinsic `(width, height)`.
The structural fuel bounds the recursion depth; `computeIntrinsicSize`
supplies `sizeOf n`, which always suffices. -/
def computeIntrinsicSizeFuel : Nat → LayoutNode → ℚ × ℚ
  | 0, .node d _ => intrinsicFallback d
  | fuel + 1, .node d cs =>
    let fallback := intrinsicFallback d
    if d.layoutMode = none ∨ d.layoutMode = some "NONE" ∨ cs.isEmpty then fallback
    else
      let padL := d.paddingLeft.getD 0
      let padR := d.paddingRight.getD 0
      let padT := d.paddingTop.getD 0
      let padB := d.paddingBottom.getD 0
      let spacing := d.itemSpacing.getD 50
      let childSizes := cs.map (fun c => computeIntrinsicSizeFuel fuel c)
      let nSpaces : ℚ := ((childSizes.length - 1 : ℕ) : ℚ)
      let contentW :=
        if d.layoutMode = some "HORIZONTAL" then
          (childSizes.map Prod.fst).foldl (· + ·) 0 + nSpaces * spacing
        else (childSizes.map Prod.fst).foldl max 0
      let contentH :=
        if d.layoutMode = some "HORIZONTAL" then
          (childSizes.map Prod.snd).foldl max 0
        else (childSizes.map Prod.snd).foldl (· + ·) 0 + nSpaces * spacing
      let intrinsic : ℚ × ℚ :=
        (max 1 (padL + contentW + padR), max 1 (padT + contentH + padB))
      if isFixedContainer d then fallback else intrinsic

mutual

/-- Number of nodes of a layout tree: an executable recursion-depth bound. -/
def nodeCount : LayoutNode → Nat
  | .node _ cs => 1 + nodeCountList cs

/-- Total node count of a list of layout trees. -/
def nodeCountList : List LayoutNode → Nat
  | [] => 0
  | c :: rest => nodeCount c + nodeCountList rest

end

/-- `computeIntrinsicSize` at adequate fuel. -/
def computeIntrinsicSize (n : LayoutNode) : ℚ × ℚ :=
  computeIntrinsicSizeFuel (nodeCount n) n

/-- `toRelativeBbox(node, frameX, frameY)`. -/
def toRelativeBbox (frameX frameY : ℚ) (d : NodeData) : Option LayoutBox :=
  d.bbox.map fun b => ⟨b.x - frameX, b.y - frameY, b.width, b.height⟩

/-- `getRawRelativeBox(node, frameX, frameY)`: relative box with width and
height floored at 1. -/
def getRawRelativeBox (frameX frameY : ℚ) (d : NodeData) : Option LayoutBox :=
  (toRelativeBbox frameX frameY d).map fun r => ⟨r.x, r.y, max 1 r.width, max 1 r.height⟩

/-- The `rawW`/`rawH` of a `childSpec`: the raw relative size, falling back
to the intrinsic size when the bbox is absent. -/
def specRawSize (fx fy : ℚ) (c : LayoutNode) : ℚ × ℚ :=
  let intr := computeIntrinsicSize c
  match getRawRelativeBox fx fy c.data with
  | some r => (r.width, r.height)
  | none => intr

/-- The main-axis size of a non-FILL child in the distribution pass:
intrinsic size for HUG, stored (raw) size otherwise. -/
def nonFillMainSize (axis : Axis) (fx fy : ℚ) (c : LayoutNode) : ℚ :=
  match axis with
  | .horizontal =>
    if getSizingMode c.data .horizontal = .HUG then (computeIntrinsicSize c).1
    else (specRawSize fx fy c).1
  | .vertical =>
    if getSizingMode c.data .vertical = .HUG then (computeIntrinsicSize c).2
    else (specRawSize fx fy c).2

/-- The cross-axis size of a child in the distribution pass. -/
def crossSizeOf (crossAxis : Axis) (innerCross fx fy : ℚ) (c : LayoutNode) : ℚ :=
  match getSizingMode c.data crossAxis with
  | .FILL => innerCross
  | .HUG =>
    (match crossAxis with
     | .horizontal => (computeIntrinsicSize c).1
     | .vertical => (computeIntrinsicSize c).2)
  | .FIXED =>
    (match crossAxis with
     | .horizontal => (specRawSize fx fy c).1
     | .vertical => (specRawSize fx fy c).2)

/-- The per-container placement context of the distribution pass of
`buildComputedLayoutBoxes`. -/
structure DistCtx where
  fx : ℚ
  fy : ℚ
  mainAxis : Axis
  innerX : ℚ
  innerY : ℚ
  innerW : ℚ
  innerH : ℚ
  gap : ℚ
  fillMainSize : ℚ

/-- The other axis. -/
def Axis.cross : Axis → Axis
  | .horizontal => .vertical
  | .vertical => .horizontal

/-- The sequential cursor placement of the distribution pass: one box per
visible child, advancing the cursor by `max 1 childMain + gap`. -/
def placeLoop (ctx : DistCtx) : List LayoutNode → ℚ → List LayoutBox
  | [], _ => []
  | c :: rest, cursor =>
    let mainMode := getSizingMode c.data ctx.mainAxis
    let childMain :=
      if mainMode = .FILL then ctx.fillMainSize
      else nonFillMainSize ctx.mainAxis ctx.fx ctx.fy c
    let innerCross := match ctx.mainAxis.cross with
      | .horizontal => ctx.innerW
      | .vertical => ctx.innerH
    let childCross := crossSizeOf ctx.mainAxis.cross innerCross ctx.fx ctx.fy c
    let box : LayoutBox :=
      match ctx.mainAxis with
      | .horizontal =>
        ⟨ctx.innerX + cursor, ctx.innerY, max 1 childMain, max 1 childCross⟩
      | .vertical =>
        ⟨ctx.innerX, ctx.innerY + cursor, max 1 childCross, max 1 childMain⟩
    box :: placeLoop ctx rest (cursor + max 1 childMain + ctx.gap)

/-- The whole distribution step of `buildComputedLayoutBoxes` for one
auto-layout container: given the container's own box, the boxes of its
visible children, in order. -/
def containerDist (fx fy : ℚ) (d : NodeData) (vis : List LayoutNode)
    (nodeBox : LayoutBox) : List LayoutBox :=
  let padL := d.paddingLeft.getD 0
  let padR := d.paddingRight.getD 0
  let padT := d.paddingTop.getD 0
  let padB := d.paddingBottom.getD 0
  let gap := d.itemSpacing.getD 50
  let innerX := nodeBox.x + padL
  let innerY := nodeBox.y + padT
  let innerW := max 1 (nodeBox.width - padL - padR)
  let innerH := max 1 (nodeBox.height - padT - padB)
  let mainAxis : Axis := if d.layoutMode = some "HORIZONTAL" then .horizontal else .vertical
  let fixedMainTotal :=
    (vis.filter (fun c => getSizingMode c.data mainAxis ≠ SizingMode.FILL)).foldl
      (fun s c => s + max 1 (nonFillMainSize mainAxis fx fy c)) 0
  let fillCount :=
    (vis.filter (fun c => getSizingMode c.data mainAxis = SizingMode.FILL)).length
  let totalSpacing := ((vis.length - 1 : ℕ) : ℚ) * gap
  let innerMain := match mainAxis with
    | .horizontal => innerW
    | .vertical => innerH
  let leftoverMain := max 0 (innerMain - fixedMainTotal - totalSpacing)
  let fillMainSize : ℚ :=
    if 0 < fillCount then max 1 ((⌊leftoverMain / (fillCount : ℚ)⌋ : ℤ) : ℚ) else 0
  placeLoop ⟨fx, fy, mainAxis, innerX, innerY, innerW, innerH, gap, fillMainSize⟩ vis 0

/-- The computed-boxes map: `Map.set` is modelled by prepending, `Map.get`
by the first matching key (so later writes shadow earlier ones). -/
abbrev Boxes := List (String × LayoutBox)

/-- Lookup in the computed-boxes map. -/
def Boxes.get (bs : Boxes) (k : String) : Option LayoutBox :=
  (bs.find? (fun p => p.1 == k)).map Prod.snd

/-- The recursive `assign` of `buildComputedLayoutBoxes`, with fuel (the
recursion depth is bounded by the tree size).  A node without a box is
skipped together with its subtree, exactly as the early `return`. -/
def assignFuel (fx fy : ℚ) : Nat → LayoutNode → Option LayoutBox → Boxes → Boxes
  | 0, _, _, acc => acc
  | fuel + 1, n, forced, acc =>
    let rawBox := getRawRelativeBox fx fy n.data
    match (match forced with | some b => some b | none => rawBox) with
    | none => acc
    | some nodeBox =>
      let acc1 := (n.data.id, nodeBox) :: acc
      if n.data.layoutMode = none ∨ n.data.layoutMode = some "NONE" ∨ n.children.isEmpty then
        n.children.foldl (fun a c => assignFuel fx fy fuel c none a) acc1
      else
        let vis := n.children.filter (fun c => c.data.visible)
        let boxes := containerDist fx fy n.data vis nodeBox
        (vis.zip boxes).foldl (fun a p => assignFuel fx fy fuel p.1 (some p.2) a) acc1

/-- `buildComputedLayoutBoxes(root, frameX, frameY)`: `nodeCount root`
bounds the recursion depth of `assign`. -/
def buildComputedLayoutBoxes (root : LayoutNode) (fx fy : ℚ) : Boxes :=
  assignFuel fx fy (nodeCount root) root none []

/-- The `while` loop of `clampLinesByHeight`: from the current count `k`,
keep incrementing while `(k == 0 ? 0 : k*lineHeight - lineHeight) + lineBox`
still fits `maxHeight`.  Fuel bounds the remaining iterations. -/
def clampLoopFuel (maxHeight lineHeightPx lineBox : ℚ) : Nat → Nat → Nat
  | 0, k => k
  | fuel + 1, k =>
    if (if k = 0 then (0 : ℚ) else (k : ℚ) * lineHeightPx - lineHeightPx) + lineBox ≤ maxHeight
    then clampLoopFuel maxHeight lineHeightPx lineBox fuel (k + 1)
    else k

/-- `clampLinesByHeight(lines, maxHeight, lineHeightPx, ascPx, descPx)`
(identical in both engine files). -/
def clampLinesByHeight (lines : List JStr) (maxHeight lineHeightPx ascPx descPx : ℚ) :
    List JStr :=
  if lines.isEmpty then [[]]
  else
    let lineBox := ascPx + descPx
    if lineHeightPx ≤ 0 ∨ lineBox ≤ 0 ∨ maxHeight ≤ 0 then [[]]
    else lines.take (max 1 (clampLoopFuel maxHeight lineHeightPx lineBox lines.length 0))

/-- Lookup in the field map (`Object.prototype.hasOwnProperty` + access). -/
def lookupField (fields : List (JStr × JStr)) (k : JStr) : Option JStr :=
  (fields.find? (fun p => p.1 == k)).map Prod.snd

/-- `s.trim()` over the JS whitespace class. -/
def jsTrim (s : JStr) : JStr := ((s.dropWhile isWS).reverse.dropWhile isWS).reverse

/-- `s.trimEnd()` over the JS whitespace class. -/
def jsTrimEnd (s : JStr) : JStr := (s.reverse.dropWhile isWS).reverse

/-- `s.toLowerCase()` (ASCII-faithful; the only name compared this way is
the ASCII constant `"text_quote"`). -/
def jsToLower (s : JStr) : JStr := s.map Char.toLower

/-- `s.endsWith(c)` for a single character. -/
def endsWithChar (s : JStr) (c : Char) : Bool := s.getLast? = some c

/-- The `text_quote` decoration of `getEditableTextValue`: trims, strips one
trailing dot, and wraps the text in an em-dash + NBSP + guillemets, restoring
the dot unless the text already ends in `!` or `?`. -/
def quoteTransform (base : JStr) : JStr :=
  let t0 := jsTrim base
  let hadTrailingDot := endsWithChar t0 '.'
  let t := if endsWithChar t0 '.' then jsTrimEnd t0.dropLast else t0
  let hasStrongEnding := endsWithChar t '!' || endsWithChar t '?'
  let suffix : JStr := if hadTrailingDot ∧ ¬ hasStrongEnding then ['.'] else []
  '\u2014' :: '\u00A0' :: '\u00AB' :: (t ++ '\u00BB' :: suffix)

/-- `getEditableTextValue(node, fields, fieldsUsed)` of the universal engine:
the supplied field value when the key exists (recording the name as used),
else the node's stored `characters`; `text_quote` nodes are decorated.
Returns the text together with the "was recorded as used" flag. -/
def getEditableTextValue (d : NodeData) (fields : List (JStr × JStr)) : JStr × Bool :=
  let base : JStr × Bool :=
    match lookupField fields d.name with
    | some v => (v, true)
    | none => (d.characters.getD [], false)
  if jsToLower d.name = "text_quote".toList
  then (quoteTransform base.1, base.2)
  else base

/-- The value selection of the snapshot engine's `renderEditableText`
(part_020, lines 323-326): `fields[node.name] ?? ""`, with the name recorded
as used only when the key exists.  Note the fallback is the EMPTY string,
not the node's stored characters. -/
def snapshotRawText (d : NodeData) (fields : List (JStr × JStr)) : JStr × Bool :=
  ((lookupField fields d.name).getD [], (lookupField fields d.name).isSome)

/-- `maxWForAnchor` of the universal engine's `renderEditableText`
(`marginSafe = 150`): the span a non-fixed pill may grow into. -/
def maxWForAnchorF (anchor : String) (frameW : ℚ) : ℚ :=
  if anchor = "center" then max 1 (frameW - 150 * 2) else max 1 (frameW - 150)

/-- `maxLineWidthPx` of `measureTextBlock` composed with the per-node
reduction of `renderEditableText`: the widest measured line, starting at 0. -/
def maxLineWidthPx (m : Measure) (lines : List JStr) : ℚ :=
  (lines.map m).foldl max 0

/-- Widths computed by the two-pass convergence of the universal engine's
`renderEditableText` for a single text node with no computed child box
(`resolveWrapWidthForNode` degenerates to `max 1 innerW` there). -/
structure PillWidths where
  maxWA : ℚ
  initialInnerW : ℚ
  finalPillW : ℚ
  finalInnerW : ℚ
  blockW : ℚ

/-- The width pipeline of the universal engine's `renderEditableText`
(lines 796-846) for one text node: pass A against the initial inner width,
clamp to the allowed span, pass B against the settled inner width. -/
def resolvePillWidth (m : Measure) (container isFixed : Bool) (anchor : String)
    (origW padL padR frameW : ℚ) (text : JStr) : PillWidths :=
  let maxWA := maxWForAnchorF anchor frameW
  let maxTextWidth :=
    if container then max 1 ((if isFixed then origW else maxWA) - padL - padR)
    else max 1 origW
  let measuredA := maxLineWidthPx m (wrapTextByWords m maxTextWidth text)
  let tentativePillW :=
    if container then (if isFixed then origW else clampQ (measuredA + padL + padR) 1 maxWA)
    else origW
  let finalPillW := max 1 tentativePillW
  let finalInnerW := if container then max 1 (finalPillW - padL - padR) else max 1 origW
  let measuredB := maxLineWidthPx m (wrapTextByWords m finalInnerW text)
  let blockW :=
    if container then (if isFixed then origW else clampQ (measuredB + padL + padR) 1 maxWA)
    else origW
  ⟨maxWA, maxTextWidth, finalPillW, finalInnerW, blockW⟩

/-- The `itemSpacing` read of the universal engine's `renderEditableText`
(line 805): 50 when the container's spacing is missing or non-finite, 0
without a container. -/
def renderItemSpacing (container : Bool) (itemSpacing : Option ℚ) : ℚ :=
  if container then itemSpacing.getD 50 else 0

/-- The stacked `textBlockHeightPx` of the universal engine (lines 850-854):
auto-layout containers stack every measured block plus inter-block spacing,
otherwise only the first block counts. -/
def stackedTextBlockHeight (isAutoLayoutContainer : Bool) (itemSpacingVal : ℚ)
    (heights : List ℚ) : ℚ :=
  if isAutoLayoutContainer then
    heights.foldl (· + ·) 0 + ((heights.length - 1 : ℕ) : ℚ) * itemSpacingVal
  else heights.headD 0

/-- The anchor inference of the universal engine's `renderEditableText`
(lines 776-794): explicit constraint first, then proximity of the original
box to the frame edges (`eps = 2`, center tolerance 4). -/
def inferAnchor (container : Bool) (constraintHorizontal : Option String)
    (relX relW frameW : ℚ) : String :=
  if container then
    if constraintHorizontal = some "CENTER" then "center"
    else if constraintHorizontal = some "LEFT" then "left"
    else if constraintHorizontal = some "RIGHT" then "right"
    else if |relX - 0| ≤ 2 then "left"
    else if |relX + relW - frameW| ≤ 2 then "right"
    else if |relX + relW / 2 - frameW / 2| ≤ 4 then "center"
    else "free"
  else "free"

/-- The horizontal position of the universal engine's `renderEditableText`
(lines 857-879 and the final clamp of line 908): container pills are placed
by anchor (right pills at `frameW - blockW`, floored at `marginSafe = 150`),
fixed containers and container-less nodes keep constraint-based placement. -/
def resolveTextX (container isFixed : Bool) (anchor constraintH : String)
    (origX origW blockW frameW : ℚ) : ℚ :=
  let newX :=
    if container ∧ ¬ isFixed then
      if anchor = "left" then 0
      else if anchor = "right" then
        (let nx := frameW - blockW; if nx < 150 then 150 else nx)
      else if anchor = "center" then ((jround (frameW / 2 - blockW / 2) : ℤ) : ℚ)
      else origX
    else if container ∧ isFixed then origX
    else if constraintH = "RIGHT" then origX + origW - blockW
    else if constraintH = "CENTER" then origX + origW / 2 - blockW / 2
    else origX
  clampQ newX 0 (max 0 (frameW - max 1 blockW))

/-- The horizontal position (and effective block width) of the snapshot
engine's `renderEditableText` (part_020 lines 386-405 and the clamp of
line 422): `RIGHT` keeps the right edge, `CENTER` the midpoint,
`LEFT_RIGHT` stretches to the original width. -/
def resolveTextXSnapshot (constraintH : String) (origX origW blockW frameW : ℚ) :
    ℚ × ℚ :=
  let xw : ℚ × ℚ :=
    if constraintH = "RIGHT" then (origX + origW - blockW, blockW)
    else if constraintH = "CENTER" then (origX + origW / 2 - blockW / 2, blockW)
    else if constraintH = "LEFT_RIGHT" then (origX, origW)
    else (origX, blockW)
  let bw := max 1 xw.2
  (clampQ xw.1 0 (max 0 (frameW - bw)), bw)

/-- A raw `absoluteBoundingBox`: every coordinate may be missing or
non-finite. -/
structure FigBBoxRaw where
  x : Option ℚ
  y : Option ℚ
  width : Option ℚ
  height : Option ℚ

/-- The fields of a raw `FigmaNodeLite` record consumed by the normalizer
(for the fields the verified operations use). -/
structure FigData where
  id : Option String
  name : Option JStr
  visible : Option Bool
  abb : Option FigBBoxRaw
  characters : Option JStr
  layoutMode : Option String
  paddingLeft : Option ℚ
  paddingRight : Option ℚ
  paddingTop : Option ℚ
  paddingBottom : Option ℚ
  itemSpacing : Option ℚ
  constraintsH : Option String
  constraintsV : Option String
  layoutSizingHorizontal : Option String
  layoutSizingVertical : Option String
  primaryAxisSizingMode : Option String
  counterAxisSizingMode : Option String

/-- A raw design-tree node. -/
inductive FigNode : Type where
  | node : FigData → List FigNode → FigNode

/-- `normalizeBbox(node)`: a bounding box survives only when every
coordinate is finite. -/
def normalizeBbox (abb : Option FigBBoxRaw) : Option LayoutBox :=
  match abb with
  | none => none
  | some b =>
    match b.x, b.y, b.width, b.height with
    | some x, some y, some w, some h => some ⟨x, y, w, h⟩
    | _, _, _, _ => none

/-- The field copies of `toLayoutNode` (everything except `id` and
`children`). -/
def figToData (fd : FigData) (id : String) : NodeData :=
  { id := id
    name := fd.name.getD []
    visible := fd.visible ≠ some false
    bbox := normalizeBbox fd.abb
    characters := fd.characters
    layoutMode := fd.layoutMode
    paddingLeft := fd.paddingLeft
    paddingRight := fd.paddingRight
    paddingTop := fd.paddingTop
    paddingBottom := fd.paddingBottom
    itemSpacing := fd.itemSpacing
    constraintsH := fd.constraintsH
    constraintsV := fd.constraintsV
    layoutSizingHorizontal := fd.layoutSizingHorizontal
    layoutSizingVertical := fd.layoutSizingVertical
    primaryAxisSizingMode := fd.primaryAxisSizingMode
    counterAxisSizingMode := fd.counterAxisSizingMode }

/-- Left-to-right traversal of a list with a threaded counter: the shape of
`input.children.map (child => toLayoutNode(child, id, byId))`, where each
call may consume random draws. -/
def threadMap (f : FigNode → Nat → LayoutNode × Nat) :
    List FigNode → Nat → List LayoutNode × Nat
  | [], k => ([], k)
  | c :: rest, k =>
    let p := f c k
    let q := threadMap f rest p.2
    (p.1 :: q.1, q.2)

/-- `toLayoutNode(input, parentId, byId)`: the `Math.random()` draw for a
missing id is modelled by an explicit stream `g` of random strings together
with a counter `k` that advances once per draw (the id becomes
`(parentId ?? "root") ++ "::" ++ g k`, as in the source).  The structural
fuel bounds the recursion depth; at fuel 0 (unreachable from the wrapper)
the children are dropped. -/
def toLayoutNodeRF (g : Nat → String) : Nat → FigNode → Option String → Nat →
    LayoutNode × Nat
  | 0, .node fd _, parentId, k =>
    let idk : String × Nat :=
      match fd.id with
      | some i => (i, k)
      | none => ((parentId.getD "root") ++ "::" ++ g k, k + 1)
    (LayoutNode.node (figToData fd idk.1) [], idk.2)
  | fuel + 1, .node fd cs, parentId, k =>
    let idk : String × Nat :=
      match fd.id with
      | some i => (i, k)
      | none => ((parentId.getD "root") ++ "::" ++ g k, k + 1)
    let r := threadMap (fun c k2 => toLayoutNodeRF g fuel c (some idk.1) k2) cs idk.2
    (LayoutNode.node (figToData fd idk.1) r.1, r.2)

mutual

/-- Number of nodes of a raw design tree. -/
def figCount : FigNode → Nat
  | .node _ cs => 1 + figCountList cs

/-- Total node count of a list of raw design trees. -/
def figCountList : List FigNode → Nat
  | [] => 0
  | c :: rest => figCount c + figCountList rest

end

/-- `toLayoutNode` at adequate fuel. -/
def toLayoutNodeR (g : Nat → String) (n : FigNode) (parentId : Option String)
    (k : Nat) : LayoutNode × Nat :=
  toLayoutNodeRF g (figCount n) n parentId k

/-- `buildLayoutTree(root).root`, with the random stream made explicit. -/
def buildLayoutTreeR (g : Nat → String) (root : FigNode) : LayoutNode :=
  (toLayoutNodeR g root none 0).1

/-- Every node of a raw tree (down to the given depth) carries an explicit
id; at fuel 0 the check fails, so adequate fuel is part of the property. -/
def allIdsFuel : Nat → FigNode → Bool
  | 0, _ => false
  | fuel + 1, .node fd cs => fd.id.isSome && cs.all (fun c => allIdsFuel fuel c)

/-- Every node of a raw tree carries an explicit id. -/
abbrev allNodesHaveIds (n : FigNode) : Prop := allIdsFuel (figCount n) n = true

/-- A `NodeData` with no optional attributes: the base for the concrete
examples below. -/
def baseND : NodeData :=
  ⟨"", [], true, none, none, none, none, none, none, none, none, none, none,
   none, none, none, none⟩

/-- A leaf rectangle node at the origin with the given size and horizontal
sizing mode. -/
def bxND (id : String) (w h : ℚ) (sizing : Option String) : NodeData :=
  { baseND with
      id := id
      bbox := some ⟨0, 0, w, h⟩
      layoutSizingHorizontal := sizing }

/-- The auto-layout row of the spec's example: a 400-wide horizontal
container with spacing 10 over children sized FIXED 100, FILL, FIXED 50. -/
def rowC2 : LayoutNode :=
  .node { baseND with
            id := "row"
            bbox := some ⟨0, 0, 400, 300⟩
            layoutMode := some "HORIZONTAL"
            itemSpacing := some 10 }
    [.node (bxND "c1" 100 300 (some "FIXED")) [],
     .node (bxND "c2" 10 300 (some "FILL")) [],
     .node (bxND "c3" 50 300 (some "FIXED")) []]

/-- A concrete measure for witnesses: 10 pixels per character. -/
def mLen : Measure := fun s => 10 * (s.length : ℚ)

/-- A raw design node record with no attributes. -/
def figBase : FigData :=
  ⟨none, none, none, none, none, none, none, none, none, none, none, none,
   none, none, none, none, none⟩

/-- A raw node with a bounding box but no id: the normalizer draws a random
id for it. -/
def figNoId : FigNode :=
  .node { figBase with abb := some ⟨some 0, some 0, some 7, some 7⟩ } []

/-- A raw node with an explicit id (and a child with an id). -/
def figWithId : FigNode :=
  .node { figBase with
            id := some "frame"
            abb := some ⟨some 0, some 0, some 9, some 9⟩ }
    [.node { figBase with
               id := some "leaf"
               abb := some ⟨some 1, some 1, some 3, some 3⟩ } []]

/-- The main-axis dimension of a box. -/
def LayoutBox.mainDim (axis : Axis) (b : LayoutBox) : ℚ :=
  match axis with
  | .horizontal => b.width
  | .vertical => b.height

/-- The main axis of a container, as read by the distribution pass. -/
def mainAxisOf (d : NodeData) : Axis :=
  if d.layoutMode = some "HORIZONTAL" then .horizontal else .vertical

/-- The inner main-axis extent of a container box. -/
def innerMainOf (d : NodeData) (nodeBox : LayoutBox) : ℚ :=
  match mainAxisOf d with
  | .horizontal => max 1 (nodeBox.width - d.paddingLeft.getD 0 - d.paddingRight.getD 0)
  | .vertical => max 1 (nodeBox.height - d.paddingTop.getD 0 - d.paddingBottom.getD 0)

/-- The main-axis component of a `(width, height)` pair. -/
def Axis.mainOf (axis : Axis) (p : ℚ × ℚ) : ℚ :=
  match axis with
  | .horizontal => p.1
  | .vertical => p.2

/-- Appending one more word to a line under construction:
`current + " " + word`. -/
def extendWord (acc w : JStr) : JStr := acc ++ ' ' :: w

/-- The line obtained by joining `ws` onto the base word `w` with single
spaces, in order. -/
def joinAll (w : JStr) (ws : List JStr) : JStr := ws.foldl extendWord w

/-- Every cumulative join starting from `acc` fits the budget: the greedy
loop of `wrapWords` only extends `current` under this condition. -/
def chainFits (m : Measure) (maxW : ℚ) : JStr → List JStr → Prop
  | _, [] => True
  | acc, u :: us => m (extendWord acc u) ≤ maxW ∧ chainFits m maxW (extendWord acc u) us

/-- A word as produced by `splitOnWS`: nonempty and free of whitespace. -/
def isWord (w : JStr) : Prop := w ≠ [] ∧ ∀ c ∈ w, isWS c = false

/-- The invariant of every line handled by `wrapWords`: empty, or a join of
words whose base word fits the budget or is a single (hard-split)
character, with every subsequent cumulative join fitting. -/
def GoodLine (m : Measure) (maxW : ℚ) (line : JStr) : Prop :=
  line = [] ∨ ∃ w ws, isWord w ∧ (∀ u ∈ ws, isWord u) ∧
    line = joinAll w ws ∧ (m w ≤ maxW ∨ w.length = 1) ∧ chainFits m maxW w ws

/-- C1 (counterexample): a finite 10x10 box at `left = 1000` in a 100x100
frame lies outside the claimed position interval `[-2*frame, +2*frame]`
(since `1000 > 200`), yet `sanitizeBox` accepts it: the guard has no upper
position bound, so the claimed "if and only if" fails. -/
theorem sanitizeBox_accepts_far_right_box :
    ((sanitizeBox (some ⟨some 1000, some 0, some 10, some 10⟩) 100 100).1).isSome = true ∧
    ¬ ((1000 : ℚ) ≤ 2 * 100) := by
  constructor
  · with_unfolding_all decide
  · norm_num

/-- C1 (amended): a finite box is rejected by `sanitizeBox` iff its width or
height leaves `[1, min(4*frame, 12000)]`, its position lies BELOW the lower
bounds `-2*frameW` / `-2*frameH` (there is no upper position check), or its
area exceeds 200M px2; any non-finite coordinate is rejected; an entry is
appended to the rejected-boxes debug list exactly when the box is rejected
(so a width-0 or NaN-width box is rejected and listed); and every overlay
that reaches the composite passed the guard. -/
theorem sanitizeBox_rejection_characterization :
    ∀ frameW frameH : ℚ,
    (∀ l t w h : ℚ,
      ((sanitizeBox (some ⟨some l, some t, some w, some h⟩) frameW frameH).1 = none ↔
        (w < 1 ∨ min (frameW * 4) 12000 < w ∨ h < 1 ∨ min (frameH * 4) 12000 < h ∨
         l < -(frameW * 2) ∨ t < -(frameH * 2) ∨ 200000000 < w * h))) ∧
    (∀ b : RawBox,
      (b.left = none ∨ b.top = none ∨ b.width = none ∨ b.height = none) →
      sanitizeBox (some b) frameW frameH = (none, true)) ∧
    (∀ b : Option RawBox,
      ((sanitizeBox b frameW frameH).2 = true ↔ (sanitizeBox b frameW frameH).1 = none)) ∧
    (∀ (baseW baseH : ℤ) (ow oh il it : ℚ) (iw ih : Option ℚ),
      normalizeCompositeBox baseW baseH ow oh il it iw ih ≠ none →
      (sanitizeBox (some ⟨some ((jround il : ℤ) : ℚ), some ((jround it : ℤ) : ℚ),
          some ((jround (iw.getD ow) : ℤ) : ℚ), some ((jround (ih.getD oh) : ℤ) : ℚ)⟩)
        (baseW : ℚ) (baseH : ℚ)).1 ≠ none) := by
  intro frameW frameH
  refine ⟨?_, ?_, ?_, ?_⟩
  · intro l t w h
    have hmain : (sanitizeBox (some ⟨some l, some t, some w, some h⟩) frameW frameH).1 = none ↔
        ¬ sanitizeBoxOk l t w h frameW frameH := by
      by_cases hok : sanitizeBoxOk l t w h frameW frameH <;> simp [sanitizeBox, hok]
    rw [hmain]
    unfold sanitizeBoxOk
    constructor
    · intro hnot
      by_contra hno
      push_neg at hno
      exact hnot ⟨⟨hno.1, hno.2.1⟩, ⟨hno.2.2.1, hno.2.2.2.1⟩,
        ⟨hno.2.2.2.2.1, hno.2.2.2.2.2.1⟩, hno.2.2.2.2.2.2⟩
    · intro hdisj hok'
      obtain ⟨⟨h1, h2⟩, ⟨h3, h4⟩, ⟨h5, h6⟩, h7⟩ := hok'
      rcases hdisj with hd | hd | hd | hd | hd | hd | hd <;> linarith
  · have key : ∀ (x1 x2 x3 x4 : Option ℚ),
        (x1 = none ∨ x2 = none ∨ x3 = none ∨ x4 = none) →
        sanitizeBox (some ⟨x1, x2, x3, x4⟩) frameW frameH = (none, true) := by
      intro x1 x2 x3 x4 hx
      cases x1 <;> cases x2 <;> cases x3 <;> cases x4 <;> simp_all [sanitizeBox]
    rintro ⟨bl, bt, bw, bh⟩ hb
    exact key bl bt bw bh hb
  · intro b
    match b with
    | none => simp [sanitizeBox]
    | some ⟨bl, bt, bw, bh⟩ =>
      cases bl <;> cases bt <;> cases bw <;> cases bh <;>
        simp only [sanitizeBox] <;> first
          | simp
          | (split <;> simp)
  · intro baseW baseH ow oh il it iw ih hne hnone
    unfold normalizeCompositeBox at hne
    split at hne
    · exact hne rfl
    · simp only [hnone] at hne
      exact hne rfl

/-- C1 (witness): concrete uses of the characterization — a NaN-width box is
rejected with a debug entry, and a width-0 box is rejected. -/
theorem sanitizeBox_rejection_witness :
    sanitizeBox (some ⟨some 0, some 0, none, some 10⟩) 100 100 = (none, true) ∧
    (sanitizeBox (some ⟨some 0, some 0, some 0, some 10⟩) 100 100).1 = none := by
  constructor
  · exact (sanitizeBox_rejection_characterization 100 100).2.1
      ⟨some 0, some 0, none, some 10⟩ (Or.inr (Or.inr (Or.inl rfl)))
  · exact ((sanitizeBox_rejection_characterization 100 100).1 0 0 0 10).mpr
      (Or.inl (by norm_num))

theorem clampLoopFuel_ge (maxH lh lineBox : ℚ) :
    ∀ fuel k, k ≤ clampLoopFuel maxH lh lineBox fuel k := by
  intro fuel
  induction fuel with
  | zero => intro k; simp [clampLoopFuel]
  | succ fuel ih =>
    intro k
    by_cases hc : (if k = 0 then (0 : ℚ) else (k : ℚ) * lh - lh) + lineBox ≤ maxH
    · rw [clampLoopFuel, if_pos hc]
      exact le_trans (Nat.le_succ k) (ih (k + 1))
    · rw [clampLoopFuel, if_neg hc]

theorem clampLoopFuel_le (maxH lh lineBox : ℚ) :
    ∀ fuel k, clampLoopFuel maxH lh lineBox fuel k ≤ k + fuel := by
  intro fuel
  induction fuel with
  | zero => intro k; simp [clampLoopFuel]
  | succ fuel ih =>
    intro k
    by_cases hc : (if k = 0 then (0 : ℚ) else (k : ℚ) * lh - lh) + lineBox ≤ maxH
    · rw [clampLoopFuel, if_pos hc]
      exact le_trans (ih (k + 1)) (by omega)
    · rw [clampLoopFuel, if_neg hc]
      omega

theorem clampLoopFuel_stop (maxH lh lineBox : ℚ) :
    ∀ fuel k, clampLoopFuel maxH lh lineBox fuel k = k + fuel ∨
      ¬ ((if clampLoopFuel maxH lh lineBox fuel k = 0 then (0 : ℚ)
          else (clampLoopFuel maxH lh lineBox fuel k : ℚ) * lh - lh) + lineBox ≤ maxH) := by
  intro fuel
  induction fuel with
  | zero => intro k; left; simp [clampLoopFuel]
  | succ fuel ih =>
    intro k
    by_cases hc : (if k = 0 then (0 : ℚ) else (k : ℚ) * lh - lh) + lineBox ≤ maxH
    · rw [clampLoopFuel, if_pos hc]
      rcases ih (k + 1) with h | h
      · left; omega
      · right; exact h
    · rw [clampLoopFuel, if_neg hc]
      right; exact hc

theorem clampLoopFuel_all (maxH lh lineBox : ℚ) :
    ∀ fuel k j, k ≤ j → j < clampLoopFuel maxH lh lineBox fuel k →
      (if j = 0 then (0 : ℚ) else (j : ℚ) * lh - lh) + lineBox ≤ maxH := by
  intro fuel
  induction fuel with
  | zero => intro k j hkj hlt; simp [clampLoopFuel] at hlt; omega
  | succ fuel ih =>
    intro k j hkj hlt
    by_cases hc : (if k = 0 then (0 : ℚ) else (k : ℚ) * lh - lh) + lineBox ≤ maxH
    · rw [clampLoopFuel, if_pos hc] at hlt
      rcases Nat.eq_or_lt_of_le hkj with heq | hgt
      · subst heq; exact hc
      · exact ih (k + 1) j hgt hlt
    · rw [clampLoopFuel, if_neg hc] at hlt; omega

/-- C9 (counterexample): with three lines, `maxHeight = 10`, line height 10
and line box `5 + 5 = 10`, the function keeps TWO lines whose stacked height
`(2-1)*10 + 10 = 20` exceeds `maxHeight`, although the one-line prefix
(height 10) fits: the kept prefix is not the longest prefix that fits. -/
theorem clampLinesByHeight_keeps_overflowing_prefix :
    clampLinesByHeight [['a'], ['b'], ['c']] 10 10 5 5 = [['a'], ['b']] ∧
    ¬ (((2 : ℚ) - 1) * 10 + (5 + 5) ≤ 10) ∧
    ((1 : ℚ) - 1) * 10 + (5 + 5) ≤ 10 := by
  refine ⟨by with_unfolding_all decide, by norm_num, by norm_num⟩

/-- C9 (amended): `clampLinesByHeight` returns `[""]` on an empty line list
or non-positive `maxHeight`, line height, or line box; otherwise it keeps a
nonempty prefix of the lines such that every strictly shorter nonempty
prefix fits `maxHeight`, and the kept prefix itself either exhausts the
input, or already overflows `maxHeight` (one line more than fits, due to
the `maxLines*lineHeight - lineHeight` off-by-one), or is the forced single
first line. -/
theorem clampLinesByHeight_characterization :
    (∀ maxH lh asc desc, clampLinesByHeight [] maxH lh asc desc = [[]]) ∧
    (∀ (lines : List JStr) maxH lh asc desc, (lh ≤ 0 ∨ asc + desc ≤ 0 ∨ maxH ≤ 0) →
      clampLinesByHeight lines maxH lh asc desc = [[]]) ∧
    (∀ (lines : List JStr) maxH lh asc desc (r : List JStr),
      r = clampLinesByHeight lines maxH lh asc desc →
      lines ≠ [] → 0 < lh → 0 < asc + desc → 0 < maxH →
      r ≠ [] ∧ r = lines.take r.length ∧ 1 ≤ r.length ∧ r.length ≤ lines.length ∧
      (∀ n : ℕ, 1 ≤ n → n < r.length → ((n : ℚ) - 1) * lh + (asc + desc) ≤ maxH) ∧
      (r.length = lines.length ∨
       maxH < ((r.length : ℚ) - 1) * lh + (asc + desc) ∨
       r.length = 1)) := by
  refine ⟨?_, ?_, ?_⟩
  · intro maxH lh asc desc; simp [clampLinesByHeight]
  · intro lines maxH lh asc desc hnp
    unfold clampLinesByHeight
    split
    · rfl
    · rw [if_pos hnp]
  · intro lines maxH lh asc desc r hr hne hlh hbox hmax
    have hnotempty : lines.isEmpty = false := by
      cases lines with
      | nil => exact absurd rfl hne
      | cons a l => rfl
    have hnp : ¬ (lh ≤ 0 ∨ asc + desc ≤ 0 ∨ maxH ≤ 0) := by
      push_neg; exact ⟨hlh, hbox, hmax⟩
    rw [clampLinesByHeight, hnotempty] at hr
    simp only [Bool.false_eq_true, if_false, if_neg hnp] at hr
    set K := clampLoopFuel maxH lh (asc + desc) lines.length 0 with hK
    have hKle : K ≤ lines.length := by
      have := clampLoopFuel_le maxH lh (asc + desc) lines.length 0
      omega
    have hlen1 : 1 ≤ lines.length := by
      cases lines with
      | nil => exact absurd rfl hne
      | cons a l => simp
    have h3 : (1 ⊔ K) ≤ lines.length := max_le hlen1 hKle
    have hrlen : r.length = (1 ⊔ K) ⊓ lines.length := by
      rw [hr]; simp [List.length_take]
    have hrlen2 : r.length = 1 ⊔ K := by rw [hrlen]; exact min_eq_left h3
    have hpos : 1 ≤ r.length := by rw [hrlen2]; exact le_max_left 1 K
    refine ⟨?_, ?_, hpos, ?_, ?_, ?_⟩
    · exact List.ne_nil_of_length_pos (by omega)
    · rw [hr, List.length_take, min_eq_left h3]
    · rw [hrlen2]; exact h3
    · intro n h1 h2
      rw [hrlen2] at h2
      have hn : n < K := by
        rcases le_or_lt K 1 with hK1 | hK1
        · exfalso
          have hle : (1 : ℕ) ⊔ K ≤ 1 := max_le le_rfl hK1
          have := lt_of_lt_of_le h2 hle
          omega
        · have hmaxeq : (1 : ℕ) ⊔ K = K := max_eq_right (le_of_lt hK1)
          rw [hmaxeq] at h2; exact h2
      have hall := clampLoopFuel_all maxH lh (asc + desc) lines.length 0 n
        (Nat.zero_le n) hn
      rw [if_neg (by omega)] at hall
      have hcast : ((n : ℚ) - 1) * lh = (n : ℚ) * lh - lh := by ring
      rw [hcast]; linarith
    · rcases clampLoopFuel_stop maxH lh (asc + desc) lines.length 0 with h | h
      · left
        rw [← hK] at h
        have hKlen : K = lines.length := by omega
        rw [hrlen2, hKlen]
        exact max_eq_right hlen1
      · by_cases hK0 : K = 0
        · right; right
          rw [hrlen2, hK0]
          exact max_eq_left (Nat.zero_le 1)
        · right; left
          rw [← hK] at h
          rw [if_neg hK0] at h
          push_neg at h
          have hrK : r.length = K := by
            rw [hrlen2]; exact max_eq_right (Nat.one_le_iff_ne_zero.mpr hK0)
          rw [hrK]
          have hcast : ((K : ℚ) - 1) * lh = (K : ℚ) * lh - lh := by ring
          rw [hcast]; linarith

/-- C9 (witness): the characterization applied at a concrete call where all
three lines fit (`maxHeight = 25`): the result is a nonempty prefix. -/
theorem clampLinesByHeight_characterization_witness :
    clampLinesByHeight [['a'], ['b'], ['c']] 25 10 5 5 ≠ [] :=
  (clampLinesByHeight_characterization.2.2 [['a'], ['b'], ['c']] 25 10 5 5
    (clampLinesByHeight [['a'], ['b'], ['c']] 25 10 5 5) rfl
    (by decide) (by norm_num) (by norm_num) (by norm_num)).1

theorem clampQ_eq_self (v lo hi : ℚ) (h1 : lo ≤ v) (h2 : v ≤ hi) : clampQ v lo hi = v := by
  unfold clampQ
  rw [max_eq_right h1, min_eq_right h2]

/-- C4 (counterexample): a right-anchored pill container at `x = 100`,
width 50 (right edge 150) in a 1000-wide frame whose content resolves to
width 120 is placed at `x = 880` by the universal engine (flush to the
frame's right edge), not at `originalRight - newWidth = 30`: the right edge
does not stay pixel-identical. -/
theorem right_anchor_pill_counterexample :
    inferAnchor true (some "RIGHT") 100 50 1000 = "right" ∧
    resolveTextX true false "right" "RIGHT" 100 50 120 1000 = 880 ∧
    (880 : ℚ) ≠ 100 + 50 - 120 := by
  refine ⟨?_, ?_, by norm_num⟩
  · simp [inferAnchor]
  · have h : resolveTextX true false "right" "RIGHT" 100 50 120 1000 =
        clampQ (if (1000 : ℚ) - 120 < 150 then 150 else 1000 - 120) 0
          (max 0 (1000 - max 1 (120 : ℚ))) := by
      simp [resolveTextX]
    rw [h]
    norm_num [clampQ]

/-- C4 (amended): the snapshot engine's `RIGHT` constraint keeps the right
edge (`x = originalRight - newWidth`) whenever the unclamped position stays
inside the frame; in the universal engine a container-less text node never
changes width (`blockW = origW`), so its right edge is trivially preserved,
while a right-anchored non-fixed pill is instead placed flush to the frame's
right edge (`x = frameW - newWidth`, floored at the 150px safety margin), so
its right edge is preserved exactly when the original box touched the frame
edge and no clamp binds. -/
theorem right_edge_resolution :
    (∀ origX origW blockW frameW : ℚ,
      0 ≤ origX + origW - blockW → origX + origW ≤ frameW → 1 ≤ blockW →
      (resolveTextXSnapshot "RIGHT" origX origW blockW frameW).1 + blockW = origX + origW) ∧
    (∀ (m : Measure) (isFixed : Bool) (anchor : String) (origW padL padR frameW : ℚ)
        (text : JStr),
      (resolvePillWidth m false isFixed anchor origW padL padR frameW text).blockW = origW) ∧
    (∀ origX origW blockW frameW : ℚ,
      origX + origW = frameW → 150 ≤ frameW - blockW → 1 ≤ blockW →
      resolveTextX true false "right" "RIGHT" origX origW blockW frameW + blockW =
        origX + origW) := by
  refine ⟨?_, ?_, ?_⟩
  · intro origX origW blockW frameW h0 hin h1
    have hbw : max 1 blockW = blockW := max_eq_right h1
    have hx : (resolveTextXSnapshot "RIGHT" origX origW blockW frameW).1 =
        clampQ (origX + origW - blockW) 0 (max 0 (frameW - max 1 blockW)) := by
      simp [resolveTextXSnapshot]
    rw [hx, hbw]
    rw [clampQ_eq_self _ _ _ h0 (le_max_of_le_right (by linarith))]
    ring
  · intro m isFixed anchor origW padL padR frameW text
    simp [resolvePillWidth]
  · intro origX origW blockW frameW hedge hmargin h1
    have hbw : max 1 blockW = blockW := max_eq_right h1
    have hnx : ¬ (frameW - blockW < 150) := not_lt.mpr (by linarith)
    have hx : resolveTextX true false "right" "RIGHT" origX origW blockW frameW =
        clampQ (if frameW - blockW < 150 then 150 else frameW - blockW) 0
          (max 0 (frameW - max 1 blockW)) := by
      simp [resolveTextX]
    rw [hx, if_neg hnx, hbw]
    rw [clampQ_eq_self _ _ _ (by linarith) (le_max_of_le_right (by linarith))]
    linarith

/-- C4 (witness): concrete right-edge preservation through both positioning
paths, discharging the in-frame hypotheses. -/
theorem right_edge_resolution_witness :
    (resolveTextXSnapshot "RIGHT" 100 200 120 1000).1 + 120 = 100 + 200 ∧
    resolveTextX true false "right" "RIGHT" 800 200 120 1000 + 120 = 800 + 200 :=
  ⟨right_edge_resolution.1 100 200 120 1000 (by norm_num) (by norm_num) (by norm_num),
   right_edge_resolution.2.2 800 200 120 1000 (by norm_num) (by norm_num) (by norm_num)⟩

/-- C6 (counterexample): in the snapshot engine (part_020), an editable text
node named `f` with stored characters `"a"` renders the EMPTY string when the
field map has no entry — it does not fall back to its stored characters. -/
theorem snapshot_field_fallback_counterexample :
    (snapshotRawText { baseND with name := ['f'], characters := some ['a'] } []).1 = [] ∧
    ({ baseND with name := ['f'], characters := some ['a'] } : NodeData).characters =
      some ['a'] ∧
    ([] : JStr) ≠ ['a'] := by
  refine ⟨by with_unfolding_all decide, rfl, by decide⟩

/-- C6 (amended): in the universal engine, `getEditableTextValue` falls back
to the node's stored `characters` when the field map has no entry (recording
nothing in `fieldsUsed`), and uses the supplied value, recording the name,
when the entry exists — `text_quote` nodes additionally decorate the base
text.  In the snapshot engine the missing-entry fallback is the EMPTY
string, not the stored characters; the used-flag behaviour is the same. -/
theorem editable_field_fallback :
    (∀ (d : NodeData) (fields : List (JStr × JStr)),
      (lookupField fields d.name = none →
        getEditableTextValue d fields =
          ((if jsToLower d.name = "text_quote".toList
            then quoteTransform (d.characters.getD []) else d.characters.getD []), false)) ∧
      (∀ v, lookupField fields d.name = some v →
        getEditableTextValue d fields =
          ((if jsToLower d.name = "text_quote".toList then quoteTransform v else v), true))) ∧
    (∀ (d : NodeData) (fields : List (JStr × JStr)),
      (lookupField fields d.name = none → snapshotRawText d fields = ([], false)) ∧
      (∀ v, lookupField fields d.name = some v → snapshotRawText d fields = (v, true))) := by
  constructor
  · intro d fields
    constructor
    · intro h
      simp only [getEditableTextValue, h]
      split <;> rfl
    · intro v h
      simp only [getEditableTextValue, h]
      split <;> rfl
  · intro d fields
    constructor
    · intro h
      simp only [snapshotRawText, h]
      rfl
    · intro v h
      simp only [snapshotRawText, h]
      rfl

/-- C6 (witness): the fallback and the supplied-value paths at concrete
inputs. -/
theorem editable_field_fallback_witness :
    getEditableTextValue { baseND with name := ['g'], characters := some ['x'] } [] =
      (['x'], false) ∧
    snapshotRawText { baseND with name := ['g'] } [(['g'], ['v'])] = (['v'], true) := by
  constructor
  · have h := (editable_field_fallback.1
      { baseND with name := ['g'], characters := some ['x'] } []).1
      (by with_unfolding_all decide)
    rw [h]
    with_unfolding_all decide
  · exact (editable_field_fallback.2 { baseND with name := ['g'] } [(['g'], ['v'])]).2
      ['v'] (by with_unfolding_all decide)

theorem nodeCount_cons : ∀ (d : NodeData) (cs : List LayoutNode),
    nodeCount (.node d cs) = nodeCountList cs + 1 := by
  intro d cs
  rw [nodeCount]
  omega

/-- C10: wherever auto-layout spacing is read — bottom-up intrinsic sizing,
top-down child distribution, and the stacking of multiple editable text
blocks — a missing (or non-finite) `itemSpacing` behaves exactly like an
explicit spacing of 50 pixels: intrinsic size and child distribution agree
with the same container carrying `itemSpacing = 50`, consecutive children of
a vertical container are separated by a 50px gap, and stacked text blocks
reserve `(n-1)*50` between blocks. -/
theorem itemSpacing_defaults_to_50 :
    (∀ (d : NodeData) (cs : List LayoutNode), d.itemSpacing = none →
      computeIntrinsicSize (.node d cs) =
        computeIntrinsicSize (.node { d with itemSpacing := some 50 } cs)) ∧
    (∀ (fx fy : ℚ) (d : NodeData) (vis : List LayoutNode) (nodeBox : LayoutBox),
      d.itemSpacing = none →
      containerDist fx fy d vis nodeBox =
        containerDist fx fy { d with itemSpacing := some 50 } vis nodeBox) ∧
    (∀ (fx fy : ℚ) (d : NodeData) (c1 c2 : LayoutNode) (nodeBox : LayoutBox)
        (b1 b2 : LayoutBox),
      d.itemSpacing = none → mainAxisOf d = .vertical →
      containerDist fx fy d [c1, c2] nodeBox = [b1, b2] →
      b2.y = b1.y + b1.height + 50) ∧
    (renderItemSpacing true none = 50) ∧
    (∀ hs : List ℚ,
      stackedTextBlockHeight true (renderItemSpacing true none) hs =
        hs.foldl (· + ·) 0 + ((hs.length - 1 : ℕ) : ℚ) * 50) := by
  refine ⟨?_, ?_, ?_, rfl, ?_⟩
  · intro d cs hnone
    unfold computeIntrinsicSize
    have h1 : nodeCount (.node d cs) = nodeCountList cs + 1 := nodeCount_cons d cs
    have h2 : nodeCount (.node { d with itemSpacing := some 50 } cs) = nodeCountList cs + 1 :=
      nodeCount_cons _ cs
    rw [h1, h2]
    simp only [computeIntrinsicSizeFuel, intrinsicFallback, isFixedContainer, hnone,
      Option.getD_some, Option.getD_none]
  · intro fx fy d vis nodeBox hnone
    unfold containerDist
    simp only [hnone, Option.getD_some, Option.getD_none]
  · intro fx fy d c1 c2 nodeBox b1 b2 hnone hvert heq
    have hlm : ¬ (d.layoutMode = some "HORIZONTAL") := by
      intro hc
      simp [mainAxisOf, hc] at hvert
    unfold containerDist at heq
    rw [if_neg hlm] at heq
    simp only [hnone, Option.getD_none] at heq
    simp only [placeLoop, Axis.cross] at heq
    rw [List.cons_eq_cons, List.cons_eq_cons] at heq
    obtain ⟨hb1, hb2, -⟩ := heq
    rw [← hb1, ← hb2]
    simp
    ring
  · intro hs
    simp [stackedTextBlockHeight, renderItemSpacing]

/-- C10 (witness): a vertical two-child container with missing spacing sizes
exactly like the same container with explicit 50px spacing, and two stacked
text blocks of heights 20 and 30 reserve one 50px gap. -/
theorem itemSpacing_defaults_to_50_witness :
    computeIntrinsicSize (.node { baseND with layoutMode := some "VERTICAL" }
        [.node (bxND "w1" 10 20 none) [], .node (bxND "w2" 10 30 none) []]) =
      computeIntrinsicSize (.node { baseND with
          layoutMode := some "VERTICAL", itemSpacing := some 50 }
        [.node (bxND "w1" 10 20 none) [], .node (bxND "w2" 10 30 none) []]) ∧
    stackedTextBlockHeight true (renderItemSpacing true none) [20, 30] =
      [20, 30].foldl (· + ·) 0 + (((2 : ℕ) - 1 : ℕ) : ℚ) * 50 :=
  ⟨itemSpacing_defaults_to_50.1 { baseND with layoutMode := some "VERTICAL" }
      [.node (bxND "w1" 10 20 none) [], .node (bxND "w2" 10 30 none) []] rfl,
   itemSpacing_defaults_to_50.2.2.2.2 [20, 30]⟩

theorem jround_within_one (q : ℚ) : |((jround q : ℤ) : ℚ) - q| ≤ 1 := by
  unfold jround
  have h1 : ((⌊q + 1/2⌋ : ℤ) : ℚ) ≤ q + 1/2 := Int.floor_le (q + 1/2)
  have h2 : q + 1/2 - 1 < ((⌊q + 1/2⌋ : ℤ) : ℚ) := Int.sub_one_lt_floor (q + 1/2)
  rw [abs_le]
  constructor <;> linarith

/-- C5: for a non-FIXED (hug) pill container the resolved width is the
maximal measured line width of the text wrapped at the settled inner width,
plus both horizontal paddings, clamped to the allowed anchor span; in the
spec's example (text "hello world", 20px padding per side) the resolved pill
width is exactly `measuredWidth("hello world") + 40` whenever the text fits
on one line at both passes and the result lies within the span — and the
rounded layer width is within 1px of it. -/
theorem hug_pill_width_formula :
    (∀ (m : Measure) (anchor : String) (origW padL padR frameW : ℚ) (text : JStr),
      (resolvePillWidth m true false anchor origW padL padR frameW text).blockW =
        clampQ (maxLineWidthPx m (wrapTextByWords m
            (resolvePillWidth m true false anchor origW padL padR frameW text).finalInnerW
            text) + padL + padR)
          1 (maxWForAnchorF anchor frameW)) ∧
    (∀ (m : Measure) (origW frameW : ℚ),
      wrapTextByWords m (max 1 (maxWForAnchorF "left" frameW - 20 - 20))
          "hello world".toList = ["hello world".toList] →
      wrapTextByWords m (m "hello world".toList) "hello world".toList =
        ["hello world".toList] →
      1 ≤ m "hello world".toList →
      m "hello world".toList + 40 ≤ maxWForAnchorF "left" frameW →
      (resolvePillWidth m true false "left" origW 20 20 frameW
          "hello world".toList).blockW = m "hello world".toList + 40 ∧
      |((jround (resolvePillWidth m true false "left" origW 20 20 frameW
          "hello world".toList).blockW : ℤ) : ℚ) -
        (m "hello world".toList + 40)| ≤ 1) := by
  constructor
  · intro m anchor origW padL padR frameW text
    simp only [resolvePillWidth, Bool.false_eq_true, if_false, if_true]
  · intro m origW frameW hA hB h1 h2
    have hm0 : (0 : ℚ) ≤ m "hello world".toList := by linarith
    have hblock : (resolvePillWidth m true false "left" origW 20 20 frameW
        "hello world".toList).blockW = m "hello world".toList + 40 := by
      simp only [resolvePillWidth, Bool.false_eq_true, if_false, if_true]
      rw [hA]
      simp only [maxLineWidthPx, List.map, List.foldl]
      rw [max_eq_right hm0]
      have e0 : m "hello world".toList + 20 + 20 = m "hello world".toList + 40 := by ring
      rw [e0, clampQ_eq_self _ _ _ (by linarith) h2]
      rw [max_eq_right (show (1 : ℚ) ≤ m "hello world".toList + 40 by linarith)]
      have e1 : m "hello world".toList + 40 - 20 - 20 = m "hello world".toList := by ring
      rw [e1, max_eq_right h1, hB]
      simp only [List.map, List.foldl]
      rw [max_eq_right hm0]
      rw [e0, clampQ_eq_self _ _ _ (by linarith) h2]
    exact ⟨hblock, by rw [hblock]; exact jround_within_one _⟩

/-- C5 (witness): with the 10px-per-character measure in a 1000-wide frame,
"hello world" (110px) fits on one line at both passes and the resolved hug
pill width is `110 + 40 = 150`. -/
theorem hug_pill_width_formula_witness :
    (resolvePillWidth mLen true false "left" 50 20 20 1000 "hello world".toList).blockW =
      mLen "hello world".toList + 40 :=
  (hug_pill_width_formula.2 mLen 50 1000
    (by with_unfolding_all decide) (by with_unfolding_all decide)
    (by with_unfolding_all decide) (by with_unfolding_all decide)).1

/-- C8 (counterexample): a node without an id gets a fresh random id from
the normalizer, so two runs of the same input with different random streams
produce different computed-layout-box maps (the map keys embed the drawn
id): the render is not a pure function of the node tree alone. -/
theorem random_id_breaks_purity :
    buildComputedLayoutBoxes (buildLayoutTreeR (fun _ => "a") figNoId) 0 0 ≠
      buildComputedLayoutBoxes (buildLayoutTreeR (fun _ => "b") figNoId) 0 0 := by
  with_unfolding_all decide

/-- C8 (amended): when every node of the input tree carries an explicit id,
the normalizer's output — and hence the computed layout boxes — is a pure
function of the tree, independent of the random-id stream; the claim fails
only when some node lacks an id (then `Math.random` output leaks into node
ids, box-map keys and debug labels). -/
theorem layout_deterministic_with_ids :
    (∀ (g g' : Nat → String) (fuel : Nat) (n : FigNode) (pid : Option String) (k : Nat),
      allIdsFuel fuel n = true →
      toLayoutNodeRF g fuel n pid k = toLayoutNodeRF g' fuel n pid k) ∧
    (∀ (g g' : Nat → String) (root : FigNode) (fx fy : ℚ),
      allNodesHaveIds root →
      buildComputedLayoutBoxes (buildLayoutTreeR g root) fx fy =
        buildComputedLayoutBoxes (buildLayoutTreeR g' root) fx fy) := by
  have part1 : ∀ (g g' : Nat → String) (fuel : Nat) (n : FigNode) (pid : Option String)
      (k : Nat), allIdsFuel fuel n = true →
      toLayoutNodeRF g fuel n pid k = toLayoutNodeRF g' fuel n pid k := by
    intro g g' fuel
    induction fuel with
    | zero =>
      intro n pid k h
      cases n with
      | node fd cs => simp [allIdsFuel] at h
    | succ fuel ih =>
      intro n pid k h
      cases n with
      | node fd cs =>
        rw [allIdsFuel] at h
        obtain ⟨hid, hall⟩ := Bool.and_eq_true_iff.mp h
        obtain ⟨i, hi⟩ := Option.isSome_iff_exists.mp hid
        have hmem : ∀ c ∈ cs, allIdsFuel fuel c = true := by
          intro c hc
          exact List.all_eq_true.mp hall c hc
        have aux : ∀ (cs2 : List FigNode) (k2 : Nat),
            (∀ c ∈ cs2, allIdsFuel fuel c = true) →
            threadMap (fun c k3 => toLayoutNodeRF g fuel c (some i) k3) cs2 k2 =
              threadMap (fun c k3 => toLayoutNodeRF g' fuel c (some i) k3) cs2 k2 := by
          intro cs2
          induction cs2 with
          | nil => intro k2 _; rfl
          | cons c rest ihc =>
            intro k2 hcs
            simp only [threadMap]
            rw [ih c (some i) k2 (hcs c (List.mem_cons_self c rest))]
            rw [ihc _ (fun u hu => hcs u (List.mem_cons_of_mem c hu))]
        simp only [toLayoutNodeRF, hi]
        rw [aux cs _ hmem]
  refine ⟨part1, ?_⟩
  intro g g' root fx fy hids
  have : buildLayoutTreeR g root = buildLayoutTreeR g' root := by
    unfold buildLayoutTreeR toLayoutNodeR
    rw [part1 g g' (figCount root) root none 0 hids]
  rw [this]

/-- C8 (witness): with every id present, two different random streams yield
identical computed layout boxes for a concrete two-node tree. -/
theorem layout_deterministic_with_ids_witness :
    buildComputedLayoutBoxes (buildLayoutTreeR (fun _ => "a") figWithId) 0 0 =
      buildComputedLayoutBoxes (buildLayoutTreeR (fun _ => "b") figWithId) 0 0 :=
  layout_deterministic_with_ids.2 (fun _ => "a") (fun _ => "b") figWithId 0 0
    (by with_unfolding_all decide)

/-- Helper: `containerDist` is `placeLoop` at the explicitly assembled
placement context. -/
theorem containerDist_eq_placeLoop (fx fy : ℚ) (d : NodeData)
    (vis : List LayoutNode) (nodeBox : LayoutBox) :
    containerDist fx fy d vis nodeBox =
      placeLoop
        ⟨fx, fy, mainAxisOf d,
         nodeBox.x + d.paddingLeft.getD 0, nodeBox.y + d.paddingTop.getD 0,
         max 1 (nodeBox.width - d.paddingLeft.getD 0 - d.paddingRight.getD 0),
         max 1 (nodeBox.height - d.paddingTop.getD 0 - d.paddingBottom.getD 0),
         d.itemSpacing.getD 50,
         if 0 < (vis.filter fun c =>
             getSizingMode c.data (mainAxisOf d) = SizingMode.FILL).length then
           max 1 ((⌊max 0 (innerMainOf d nodeBox -
             (vis.filter fun c =>
               getSizingMode c.data (mainAxisOf d) ≠ SizingMode.FILL).foldl
               (fun s c => s + max 1 (nonFillMainSize (mainAxisOf d) fx fy c)) 0 -
             ((vis.length - 1 : ℕ) : ℚ) * d.itemSpacing.getD 50) /
             ((vis.filter fun c =>
               getSizingMode c.data (mainAxisOf d) = SizingMode.FILL).length :
               ℚ)⌋ : ℤ) : ℚ)
         else 0⟩ vis 0 := rfl

/-- Helper: the box placed at index `i` gets main dimension `max 1` of the
resolved child main size, independently of the cursor and the neighbours. -/
theorem placeLoop_get_mainDim (ctx : DistCtx) (cs : List LayoutNode) :
    ∀ (cursor : ℚ) (i : ℕ) (hi : i < cs.length),
      ((placeLoop ctx cs cursor)[i]?).map (LayoutBox.mainDim ctx.mainAxis) =
        some (max 1 (if getSizingMode (cs[i]).data ctx.mainAxis = SizingMode.FILL
          then ctx.fillMainSize
          else nonFillMainSize ctx.mainAxis ctx.fx ctx.fy (cs[i]))) := by
  induction cs with
  | nil => intro cursor i hi; exact absurd hi (by simp)
  | cons c rest ih =>
    intro cursor i hi
    cases i with
    | zero =>
      cases hax : ctx.mainAxis <;>
        simp [placeLoop, LayoutBox.mainDim, hax]
    | succ n =>
      have hn : n < rest.length := Nat.lt_of_succ_lt_succ hi
      simp only [placeLoop, List.getElem?_cons_succ, List.getElem_cons_succ]
      exact ih _ n hn

/-- Helper: the main dimension of the `i`-th box of the distribution pass,
with the container context spelled out. -/
theorem containerDist_get_mainDim (fx fy : ℚ) (d : NodeData)
    (vis : List LayoutNode) (nodeBox : LayoutBox) (i : ℕ) (hi : i < vis.length) :
    ((containerDist fx fy d vis nodeBox)[i]?).map
        (LayoutBox.mainDim (mainAxisOf d)) =
      some (max 1 (if getSizingMode (vis[i]).data (mainAxisOf d) = SizingMode.FILL
        then
          if 0 < (vis.filter fun c =>
              getSizingMode c.data (mainAxisOf d) = SizingMode.FILL).length then
            max 1 ((⌊max 0 (innerMainOf d nodeBox -
              (vis.filter fun c =>
                getSizingMode c.data (mainAxisOf d) ≠ SizingMode.FILL).foldl
                (fun s c => s + max 1 (nonFillMainSize (mainAxisOf d) fx fy c)) 0 -
              ((vis.length - 1 : ℕ) : ℚ) * d.itemSpacing.getD 50) /
              ((vis.filter fun c =>
                getSizingMode c.data (mainAxisOf d) = SizingMode.FILL).length :
                ℚ)⌋ : ℤ) : ℚ)
          else 0
        else nonFillMainSize (mainAxisOf d) fx fy (vis[i]))) := by
  rw [containerDist_eq_placeLoop]
  exact placeLoop_get_mainDim
    ⟨fx, fy, mainAxisOf d,
     nodeBox.x + d.paddingLeft.getD 0, nodeBox.y + d.paddingTop.getD 0,
     max 1 (nodeBox.width - d.paddingLeft.getD 0 - d.paddingRight.getD 0),
     max 1 (nodeBox.height - d.paddingTop.getD 0 - d.paddingBottom.getD 0),
     d.itemSpacing.getD 50,
     if 0 < (vis.filter fun c =>
         getSizingMode c.data (mainAxisOf d) = SizingMode.FILL).length then
       max 1 ((⌊max 0 (innerMainOf d nodeBox -
         (vis.filter fun c =>
           getSizingMode c.data (mainAxisOf d) ≠ SizingMode.FILL).foldl
           (fun s c => s + max 1 (nonFillMainSize (mainAxisOf d) fx fy c)) 0 -
         ((vis.length - 1 : ℕ) : ℚ) * d.itemSpacing.getD 50) /
         ((vis.filter fun c =>
           getSizingMode c.data (mainAxisOf d) = SizingMode.FILL).length :
           ℚ)⌋ : ℤ) : ℚ)
     else 0⟩ vis 0 i hi

set_option maxRecDepth 100000 in
/-- C2: in the distribution pass of an auto-layout container, every
main-axis FILL child receives the same share
`max 1 ⌊leftover / fillCount⌋` of the leftover main space obtained after
each non-FILL child reserves `max 1` of its resolved main size and
`(n-1)` gaps of `itemSpacing` are set aside; a FIXED child keeps its
stored main size and a HUG child its intrinsic main size (each floored at
1); and in the spec's example row `[FIXED 100, FILL, FIXED 50]` inside a
400-wide box with spacing 10 the FILL child's computed width is 230. -/
theorem autolayout_fill_distribution :
    (∀ (fx fy : ℚ) (d : NodeData) (vis : List LayoutNode) (nodeBox : LayoutBox)
      (i : ℕ) (hi : i < vis.length),
      (getSizingMode (vis[i]).data (mainAxisOf d) = SizingMode.FILL →
        ((containerDist fx fy d vis nodeBox)[i]?).map
            (LayoutBox.mainDim (mainAxisOf d)) =
          some (max 1 ((⌊max 0 (innerMainOf d nodeBox -
            (vis.filter fun c =>
              getSizingMode c.data (mainAxisOf d) ≠ SizingMode.FILL).foldl
              (fun s c => s + max 1 (nonFillMainSize (mainAxisOf d) fx fy c)) 0 -
            ((vis.length - 1 : ℕ) : ℚ) * d.itemSpacing.getD 50) /
            ((vis.filter fun c =>
              getSizingMode c.data (mainAxisOf d) = SizingMode.FILL).length :
              ℚ)⌋ : ℤ) : ℚ))) ∧
      (getSizingMode (vis[i]).data (mainAxisOf d) = SizingMode.FIXED →
        ((containerDist fx fy d vis nodeBox)[i]?).map
            (LayoutBox.mainDim (mainAxisOf d)) =
          some (max 1 ((mainAxisOf d).mainOf (specRawSize fx fy (vis[i]))))) ∧
      (getSizingMode (vis[i]).data (mainAxisOf d) = SizingMode.HUG →
        ((containerDist fx fy d vis nodeBox)[i]?).map
            (LayoutBox.mainDim (mainAxisOf d)) =
          some (max 1 ((mainAxisOf d).mainOf (computeIntrinsicSize (vis[i])))))) ∧
    (Boxes.get (buildComputedLayoutBoxes rowC2 0 0) "c2").map LayoutBox.width =
      some 230 := by
  constructor
  · intro fx fy d vis nodeBox i hi
    refine ⟨?_, ?_, ?_⟩
    · intro hfill
      have hmem : vis[i] ∈ vis.filter fun c =>
          getSizingMode c.data (mainAxisOf d) = SizingMode.FILL :=
        List.mem_filter.mpr ⟨List.getElem_mem hi, by simp [hfill]⟩
      have hcnt : 0 < (vis.filter fun c =>
          getSizingMode c.data (mainAxisOf d) = SizingMode.FILL).length :=
        List.length_pos.mpr (List.ne_nil_of_mem hmem)
      rw [containerDist_get_mainDim fx fy d vis nodeBox i hi]
      simp only [hfill, reduceIte]
      rw [if_pos hcnt, ← max_assoc, max_self]
    · intro hfixed
      have key : ∀ (ax : Axis) (c : LayoutNode),
          getSizingMode c.data ax = SizingMode.FIXED →
          nonFillMainSize ax fx fy c = ax.mainOf (specRawSize fx fy c) := by
        intro ax c hc
        cases ax <;> simp [nonFillMainSize, Axis.mainOf, hc]
      rw [containerDist_get_mainDim fx fy d vis nodeBox i hi]
      simp only [hfixed]
      rw [if_neg (by decide : ¬ (SizingMode.FIXED = SizingMode.FILL)),
        key _ _ hfixed]
    · intro hhug
      have key : ∀ (ax : Axis) (c : LayoutNode),
          getSizingMode c.data ax = SizingMode.HUG →
          nonFillMainSize ax fx fy c = ax.mainOf (computeIntrinsicSize c) := by
        intro ax c hc
        cases ax <;> simp [nonFillMainSize, Axis.mainOf, hc]
      rw [containerDist_get_mainDim fx fy d vis nodeBox i hi]
      simp only [hhug]
      rw [if_neg (by decide : ¬ (SizingMode.HUG = SizingMode.FILL)),
        key _ _ hhug]
  · with_unfolding_all decide

set_option maxRecDepth 100000 in
/-- C2 (witness): the general share formula, applied to the example row at
index 1, evaluates to width 230. -/
theorem autolayout_fill_distribution_witness :
    ((containerDist 0 0 rowC2.data rowC2.children ⟨0, 0, 400, 300⟩)[1]?).map
        (LayoutBox.mainDim (mainAxisOf rowC2.data)) = some 230 := by
  have h := (autolayout_fill_distribution.1 0 0 rowC2.data rowC2.children
      ⟨0, 0, 400, 300⟩ 1 (by with_unfolding_all decide)).1
    (by with_unfolding_all decide)
  rw [h]
  with_unfolding_all decide

theorem joinAll_nil (w : JStr) : joinAll w [] = w := rfl

theorem joinAll_cons (w u : JStr) (us : List JStr) :
    joinAll w (u :: us) = joinAll (extendWord w u) us := rfl

theorem joinAll_snoc (w u : JStr) (us : List JStr) :
    joinAll w (us ++ [u]) = extendWord (joinAll w us) u := by
  simp [joinAll, List.foldl_append]

theorem extendWord_ne_nil (acc u : JStr) : extendWord acc u ≠ [] := by
  simp [extendWord]

theorem chainFits_snoc (m : Measure) (maxW : ℚ) :
    ∀ (us : List JStr) (acc u : JStr), chainFits m maxW acc us →
      m (extendWord (joinAll acc us) u) ≤ maxW →
      chainFits m maxW acc (us ++ [u]) := by
  intro us
  induction us with
  | nil => intro acc u _ hfit; exact ⟨hfit, trivial⟩
  | cons v vs ih =>
    intro acc u hch hfit
    exact ⟨hch.1, ih (extendWord acc v) u hch.2 hfit⟩

theorem chainFits_last (m : Measure) (maxW : ℚ) :
    ∀ (us : List JStr) (acc u : JStr), chainFits m maxW acc (u :: us) →
      m (joinAll acc (u :: us)) ≤ maxW := by
  intro us
  induction us with
  | nil => intro acc u hch; exact hch.1
  | cons v vs ih =>
    intro acc u hch
    exact ih (extendWord acc u) v hch.2

theorem scanFit_fits (m : Measure) (maxW : ℚ) :
    ∀ (l acc : JStr), 0 < scanFitAux m maxW acc l →
      m (acc ++ l.take (scanFitAux m maxW acc l)) ≤ maxW := by
  intro l
  induction l with
  | nil => intro acc h; exact absurd h (by simp [scanFitAux])
  | cons c cs ih =>
    intro acc h
    by_cases hm : m (acc ++ [c]) ≤ maxW
    · rw [scanFitAux, if_pos hm] at h ⊢
      rw [Nat.add_comm 1 (scanFitAux m maxW (acc ++ [c]) cs), List.take_succ_cons]
      rcases Nat.eq_zero_or_pos (scanFitAux m maxW (acc ++ [c]) cs) with h0 | hp
      · simpa [h0] using hm
      · have := ih (acc ++ [c]) hp
        simpa [List.append_assoc] using this
    · rw [scanFitAux, if_neg hm] at h
      exact absurd h (by simp)

theorem getLastD_mem_or (α : Type) :
    ∀ (l : List α) (d : α), l.getLastD d ∈ l ∨ l.getLastD d = d := by
  intro l
  induction l with
  | nil => intro d; exact Or.inr rfl
  | cons a t ih =>
    intro d
    rw [List.getLastD_cons]
    rcases ih a with h | h
    · exact Or.inl (List.mem_cons_of_mem _ h)
    · exact Or.inl (by rw [h]; exact List.mem_cons_self a t)

theorem splitLongWordFuel_chunks (m : Measure) (maxW : ℚ) :
    ∀ (fuel : Nat) (w : JStr), (∀ c ∈ w, isWS c = false) →
      ∀ chunk ∈ splitLongWordFuel m maxW fuel w,
        chunk ≠ [] ∧ (∀ c ∈ chunk, isWS c = false) ∧
          (m chunk ≤ maxW ∨ chunk.length = 1) := by
  intro fuel
  induction fuel with
  | zero => intro w _ chunk hc; exact absurd hc (by simp [splitLongWordFuel])
  | succ fuel ih =>
    intro w hw chunk hc
    cases w with
    | nil => exact absurd hc (by simp [splitLongWordFuel])
    | cons a t =>
      rw [splitLongWordFuel] at hc
      rcases List.mem_cons.mp hc with h1 | h2
      · subst h1
        refine ⟨?_, ?_, ?_⟩
        · rw [Ne, List.take_eq_nil_iff]
          push_neg
          exact ⟨by positivity, by simp⟩
        · intro c hcmem
          exact hw c (List.take_subset _ _ hcmem)
        · rcases Nat.eq_zero_or_pos (scanFitAux m maxW [] (a :: t)) with h0 | hp
          · right
            simp [h0]
          · left
            have hmax : max (scanFitAux m maxW [] (a :: t)) 1 =
                scanFitAux m maxW [] (a :: t) := Nat.max_eq_left hp
            rw [hmax]
            have := scanFit_fits m maxW (a :: t) [] hp
            simpa using this
      · exact ih _ (fun c hcm => hw c (List.drop_subset _ _ hcm)) chunk h2
      simp

theorem splitLongWord_singleton (m : Measure) (maxW : ℚ) (c : Char)
    (hm : ¬ m [c] ≤ maxW) : splitLongWord m maxW [c] = [[c]] := by
  simp [splitLongWord, splitLongWordFuel, scanFitAux, if_neg hm]

theorem splitWSAux_words :
    ∀ (s acc : JStr), (∀ c ∈ acc, isWS c = false) →
      ∀ u ∈ splitWSAux s acc, isWord u := by
  intro s
  induction s with
  | nil =>
    intro acc hacc u hu
    rw [splitWSAux] at hu
    by_cases ha : acc = []
    · exact absurd hu (by simp [if_pos ha])
    · rw [if_neg ha] at hu
      rcases List.mem_singleton.mp hu with rfl
      refine ⟨by simpa using ha, ?_⟩
      intro c hcm
      exact hacc c (List.mem_reverse.mp hcm)
  | cons c rest ih =>
    intro acc hacc u hu
    rw [splitWSAux] at hu
    by_cases hws : isWS c
    · rw [if_pos hws] at hu
      by_cases ha : acc = []
      · rw [if_pos ha] at hu
        exact ih [] (by simp) u hu
      · rw [if_neg ha] at hu
        rcases List.mem_cons.mp hu with h1 | h2
        · subst h1
          refine ⟨by simpa using ha, ?_⟩
          intro x hxm
          exact hacc x (List.mem_reverse.mp hxm)
        · exact ih [] (by simp) u h2
    · rw [if_neg hws] at hu
      refine ih (c :: acc) ?_ u hu
      intro x hxm
      rcases List.mem_cons.mp hxm with rfl | hx
      · exact Bool.not_eq_true _ ▸ (by simpa using hws)
      · exact hacc x hx

theorem splitOnWS_words (s : JStr) : ∀ u ∈ splitOnWS s, isWord u :=
  splitWSAux_words s [] (by simp)

theorem splitParagraphs_cons (c : Char) (rest : JStr) (hr : c ≠ '\r') :
    splitParagraphs (c :: rest) =
      if c = '\n' ∨ c = '\u2028' then [] :: splitParagraphs rest
      else match splitParagraphs rest with
        | [] => [[c]]
        | p :: ps => (c :: p) :: ps :=
  splitParagraphs.eq_3 c rest (fun _ hc _ => absurd hc hr)

theorem splitParagraphs_no_break :
    ∀ (s : JStr), (∀ c ∈ s, c ≠ '\r' ∧ c ≠ '\n' ∧ c ≠ '\u2028') →
      splitParagraphs s = [s] := by
  intro s
  induction s with
  | nil => intro _; rfl
  | cons c rest ih =>
    intro h
    obtain ⟨h1, h2, h3⟩ := h c (List.mem_cons_self c rest)
    have hrest := ih (fun x hx => h x (List.mem_cons_of_mem c hx))
    rw [splitParagraphs_cons c rest h1, if_neg (by simp [h2, h3]), hrest]

theorem joinAll_flat (ws : List JStr) :
    ∀ (w : JStr), joinAll w ws = w ++ ws.flatMap (fun u => ' ' :: u) := by
  induction ws with
  | nil => intro w; simp [joinAll]
  | cons u us ih =>
    intro w
    rw [joinAll_cons, ih]
    simp [extendWord]

theorem splitWSAux_append_word :
    ∀ (w : JStr), w ≠ [] → (∀ c ∈ w, isWS c = false) →
      ∀ (rest acc : JStr),
        splitWSAux (w ++ rest) acc = splitWSAux rest (w.reverse ++ acc) := by
  intro w
  induction w with
  | nil => intro hne; exact absurd rfl hne
  | cons c w2 ih =>
    intro _ hws rest acc
    have hc : isWS c = false := hws c (List.mem_cons_self c w2)
    rw [List.cons_append, splitWSAux, hc]
    simp only [Bool.false_eq_true, if_false]
    by_cases hw2 : w2 = []
    · subst hw2
      simp
    · rw [ih hw2 (fun x hx => hws x (List.mem_cons_of_mem c hx)) rest (c :: acc)]
      simp

theorem splitWSAux_flat :
    ∀ (ws : List JStr) (acc : JStr), acc ≠ [] → (∀ u ∈ ws, isWord u) →
      splitWSAux (ws.flatMap (fun u => ' ' :: u)) acc = acc.reverse :: ws := by
  intro ws
  induction ws with
  | nil =>
    intro acc hacc _
    rw [List.flatMap_nil, splitWSAux, if_neg hacc]
  | cons u us ih =>
    intro acc hacc hw
    obtain ⟨hu1, hu2⟩ := hw u (List.mem_cons_self u us)
    rw [List.flatMap_cons, List.cons_append, splitWSAux]
    have : isWS ' ' = true := by decide
    rw [this]
    simp only [if_true, if_neg hacc]
    rw [splitWSAux_append_word u hu1 hu2 _ [], List.append_nil,
      ih u.reverse (by simpa using hu1) (fun x hx => hw x (List.mem_cons_of_mem u hx)),
      List.reverse_reverse]

theorem splitOnWS_joinAll (w : JStr) (ws : List JStr) (hw : isWord w)
    (hws : ∀ u ∈ ws, isWord u) : splitOnWS (joinAll w ws) = w :: ws := by
  rw [joinAll_flat, splitOnWS, splitWSAux_append_word w hw.1 hw.2 _ [],
    List.append_nil]
  cases ws with
  | nil =>
    rw [List.flatMap_nil, splitWSAux,
      if_neg (by simpa using hw.1), List.reverse_reverse]
  | cons u us =>
    rw [splitWSAux_flat (u :: us) w.reverse (by simpa using hw.1) hws,
      List.reverse_reverse]

theorem wrapWords_cons_nil (m : Measure) (maxW : ℚ) (w : JStr) (ws : List JStr) :
    wrapWords m maxW (w :: ws) [] =
      if m w ≤ maxW then wrapWords m maxW ws w
      else (splitLongWord m maxW w).dropLast ++
        wrapWords m maxW ws ((splitLongWord m maxW w).getLastD []) := by
  by_cases hm : m w ≤ maxW <;> simp [wrapWords, hm]

theorem wrapWords_cons (m : Measure) (maxW : ℚ) (w : JStr) (ws : List JStr)
    (cur : JStr) (hc : cur ≠ []) :
    wrapWords m maxW (w :: ws) cur =
      if m (cur ++ ' ' :: w) ≤ maxW then wrapWords m maxW ws (cur ++ ' ' :: w)
      else cur ::
        (if m w ≤ maxW then wrapWords m maxW ws w
         else (splitLongWord m maxW w).dropLast ++
           wrapWords m maxW ws ((splitLongWord m maxW w).getLastD [])) := by
  by_cases h1 : m (cur ++ ' ' :: w) ≤ maxW <;> by_cases h2 : m w ≤ maxW <;>
    simp [wrapWords, hc, h1, h2]

theorem wrapWords_run (m : Measure) (maxW : ℚ) :
    ∀ (us : List JStr) (acc : JStr), acc ≠ [] → chainFits m maxW acc us →
      wrapWords m maxW us acc = [joinAll acc us] := by
  intro us
  induction us with
  | nil => intro acc _ _; rfl
  | cons u us2 ih =>
    intro acc hacc hch
    rw [chainFits] at hch
    obtain ⟨h1, h2⟩ := hch
    rw [joinAll_cons, wrapWords_cons m maxW u us2 acc hacc,
      if_pos (by simpa [extendWord] using h1)]
    exact ih (extendWord acc u) (extendWord_ne_nil acc u) h2

theorem GoodLine_word (m : Measure) (maxW : ℚ) (w : JStr) (hw : isWord w)
    (hf : m w ≤ maxW ∨ w.length = 1) : GoodLine m maxW w :=
  Or.inr ⟨w, [], hw, by simp, rfl, hf, by rw [chainFits]; trivial⟩

theorem GoodLine_extend (m : Measure) (maxW : ℚ) (cur w : JStr)
    (hcur : GoodLine m maxW cur) (hc : cur ≠ []) (hw : isWord w)
    (hfit : m (cur ++ ' ' :: w) ≤ maxW) : GoodLine m maxW (cur ++ ' ' :: w) := by
  rcases hcur with rfl | ⟨w0, ws0, hw0, hws0, rfl, hf0, hch0⟩
  · exact absurd rfl hc
  · refine Or.inr ⟨w0, ws0 ++ [w], hw0, ?_, ?_, hf0, ?_⟩
    · intro u hu
      rcases List.mem_append.mp hu with h1 | h2
      · exact hws0 u h1
      · rcases List.mem_singleton.mp h2 with rfl
        exact hw
    · rw [joinAll_snoc]
      rfl
    · exact chainFits_snoc m maxW ws0 w0 w hch0 (by simpa [extendWord] using hfit)

theorem wrapWords_good (m : Measure) (maxW : ℚ) :
    ∀ (ws : List JStr) (cur : JStr), (∀ u ∈ ws, isWord u) →
      GoodLine m maxW cur →
      ∀ line ∈ wrapWords m maxW ws cur, GoodLine m maxW line := by
  intro ws
  induction ws with
  | nil =>
    intro cur _ hcur line hl
    rw [wrapWords] at hl
    rcases List.mem_singleton.mp hl with rfl
    exact hcur
  | cons w ws2 ih =>
    intro cur hws hcur line hl
    have hw : isWord w := hws w (List.mem_cons_self w ws2)
    have hws2 : ∀ u ∈ ws2, isWord u := fun u hu => hws u (List.mem_cons_of_mem w hu)
    have hlastGood : GoodLine m maxW ((splitLongWord m maxW w).getLastD []) := by
      rcases getLastD_mem_or JStr (splitLongWord m maxW w) [] with hmem | heq
      · have hch := splitLongWordFuel_chunks m maxW w.length w hw.2 _ hmem
        exact GoodLine_word m maxW _ ⟨hch.1, hch.2.1⟩ hch.2.2
      · rw [heq]
        exact Or.inl rfl
    by_cases hc : cur = []
    · subst hc
      rw [wrapWords_cons_nil] at hl
      by_cases hm : m w ≤ maxW
      · rw [if_pos hm] at hl
        exact ih w hws2 (GoodLine_word m maxW w hw (Or.inl hm)) line hl
      · rw [if_neg hm] at hl
        rcases List.mem_append.mp hl with h1 | h2
        · have hch := splitLongWordFuel_chunks m maxW w.length w hw.2 line
            (List.dropLast_subset _ h1)
          exact GoodLine_word m maxW line ⟨hch.1, hch.2.1⟩ hch.2.2
        · exact ih _ hws2 hlastGood line h2
    · rw [wrapWords_cons m maxW w ws2 cur hc] at hl
      by_cases h1 : m (cur ++ ' ' :: w) ≤ maxW
      · rw [if_pos h1] at hl
        exact ih _ hws2 (GoodLine_extend m maxW cur w hcur hc hw h1) line hl
      · rw [if_neg h1] at hl
        rcases List.mem_cons.mp hl with rfl | h3
        · exact hcur
        · by_cases hm : m w ≤ maxW
          · rw [if_pos hm] at h3
            exact ih w hws2 (GoodLine_word m maxW w hw (Or.inl hm)) line h3
          · rw [if_neg hm] at h3
            rcases List.mem_append.mp h3 with h4 | h5
            · have hch := splitLongWordFuel_chunks m maxW w.length w hw.2 line
                (List.dropLast_subset _ h4)
              exact GoodLine_word m maxW line ⟨hch.1, hch.2.1⟩ hch.2.2
            · exact ih _ hws2 hlastGood line h5

theorem nonWS_not_break (c : Char) (h : isWS c = false) :
    c ≠ '\r' ∧ c ≠ '\n' ∧ c ≠ '\u2028' := by
  refine ⟨?_, ?_, ?_⟩ <;> intro he <;> rw [he] at h <;> exact absurd h (by decide)

theorem goodline_fits (m : Measure) (maxW : ℚ) (h0 : m [] ≤ maxW) (line : JStr)
    (hg : GoodLine m maxW line) : m line ≤ maxW ∨ line.length = 1 := by
  rcases hg with rfl | ⟨w, ws, hw, hws, rfl, hfit, hch⟩
  · exact Or.inl h0
  · cases ws with
    | nil => simpa [joinAll] using hfit
    | cons u us => exact Or.inl (chainFits_last m maxW us w u hch)

theorem wrap_mem_good (m : Measure) (maxW : ℚ) (text line : JStr)
    (hl : line ∈ wrapTextByWords m maxW text) : GoodLine m maxW line := by
  simp only [wrapTextByWords] at hl
  by_cases hnil : (splitParagraphs text).flatMap (wrapParagraph m maxW) = []
  · rw [if_pos hnil] at hl
    rcases List.mem_singleton.mp hl with rfl
    exact Or.inl rfl
  · rw [if_neg hnil] at hl
    obtain ⟨p, _, hlp⟩ := List.mem_flatMap.mp hl
    simp only [wrapParagraph] at hlp
    by_cases hpe : p = []
    · rw [if_pos hpe] at hlp
      rcases List.mem_singleton.mp hlp with rfl
      exact Or.inl rfl
    · rw [if_neg hpe] at hlp
      by_cases hwn : splitOnWS p = []
      · rw [if_pos hwn] at hlp
        rcases List.mem_singleton.mp hlp with rfl
        exact Or.inl rfl
      · rw [if_neg hwn] at hlp
        exact wrapWords_good m maxW (splitOnWS p) [] (splitOnWS_words p)
          (Or.inl rfl) line hlp

theorem wrap_self (m : Measure) (maxW : ℚ) (line : JStr)
    (hg : GoodLine m maxW line) : wrapTextByWords m maxW line = [line] := by
  rcases hg with rfl | ⟨w, ws, hw, hws, rfl, hfit, hch⟩
  · rfl
  · have hchars : ∀ c ∈ joinAll w ws, c ≠ '\r' ∧ c ≠ '\n' ∧ c ≠ '\u2028' := by
      intro c hcm
      rw [joinAll_flat] at hcm
      rcases List.mem_append.mp hcm with h1 | h2
      · exact nonWS_not_break c (hw.2 c h1)
      · obtain ⟨u, hu, hcu⟩ := List.mem_flatMap.mp h2
        rcases List.mem_cons.mp hcu with rfl | h3
        · exact ⟨by decide, by decide, by decide⟩
        · exact nonWS_not_break c ((hws u hu).2 c h3)
    have hline_ne : joinAll w ws ≠ [] := by
      rw [joinAll_flat]
      obtain ⟨a, t, rfl⟩ := List.exists_cons_of_ne_nil hw.1
      simp
    have hpar : splitParagraphs (joinAll w ws) = [joinAll w ws] :=
      splitParagraphs_no_break _ hchars
    have hwords : splitOnWS (joinAll w ws) = w :: ws := splitOnWS_joinAll w ws hw hws
    have hwp : wrapParagraph m maxW (joinAll w ws) = [joinAll w ws] := by
      simp only [wrapParagraph, if_neg hline_ne, hwords,
        if_neg (List.cons_ne_nil w ws)]
      by_cases hm : m w ≤ maxW
      · rw [wrapWords_cons_nil, if_pos hm, wrapWords_run m maxW ws w hw.1 hch]
      · have hlen : w.length = 1 := hfit.resolve_left hm
        obtain ⟨c, rfl⟩ : ∃ c, w = [c] := by
          cases w with
          | nil => simp at hlen
          | cons a t =>
            cases t with
            | nil => exact ⟨a, rfl⟩
            | cons b t2 => simp at hlen
        rw [wrapWords_cons_nil, if_neg hm, splitLongWord_singleton m maxW c hm,
          show ([[c]] : List JStr).dropLast = [] from rfl,
          show ([[c]] : List JStr).getLastD [] = [c] from rfl,
          List.nil_append, wrapWords_run m maxW ws [c] (by simp) hch]
    simp only [wrapTextByWords, hpar, List.flatMap_cons, List.flatMap_nil,
      List.append_nil, hwp]
    rw [if_neg (by simp)]

/-- C3: every line returned by `wrapTextByWords` measures within the width
budget, except that a line may be a single hard-split character (the sole
remnant of a word wider than the budget, which no budget can hold); the
hypothesis `m "" ≤ budget` is the trivial fact that the empty line fits. -/
theorem wrap_lines_fit_budget (m : Measure) (maxW : ℚ) (h : m [] ≤ maxW) :
    ∀ (text : JStr), ∀ line ∈ wrapTextByWords m maxW text,
      m line ≤ maxW ∨ line.length = 1 := by
  intro text line hl
  exact goodline_fits m maxW h line (wrap_mem_good m maxW text line hl)

/-- C3 (witness): with a 10px-per-character measure and a 30px budget, the
wrap of "hello world" contains the line "hel", which fits the budget. -/
theorem wrap_lines_fit_budget_witness :
    mLen "hel".toList ≤ 30 ∨ ("hel".toList).length = 1 :=
  wrap_lines_fit_budget mLen 30 (by with_unfolding_all decide)
    "hello world".toList "hel".toList (by with_unfolding_all decide)

/-- C7: `wrapTextByWords` of the empty string is the one-element list
`[""]` (never `[]`), and the wrap is idempotent: every line of any wrap,
re-wrapped at the same budget with the same measure, is returned unchanged
as its own single line. -/
theorem wrap_empty_and_idempotent (m : Measure) (maxW : ℚ) :
    wrapTextByWords m maxW [] = [[]] ∧
    ∀ (text : JStr), ∀ line ∈ wrapTextByWords m maxW text,
      wrapTextByWords m maxW line = [line] := by
  constructor
  · rfl
  · intro text line hl
    exact wrap_self m maxW line (wrap_mem_good m maxW text line hl)

/-- C7 (witness): re-wrapping the concrete output line "hel" of the wrap of
"hello world" at budget 30 returns exactly that line. -/
theorem wrap_empty_and_idempotent_witness :
    wrapTextByWords mLen 30 "hel".toList = ["hel".toList] :=
  (wrap_empty_and_idempotent mLen 30).2 "hello world".toList "hel".toList
    (by with_unfolding_all decide)
